import Mathlib

set_option maxRecDepth 8192

/-
Verification of the powerful-number checker from `powerful/ispowerful.c`
and of its command-line wrapper `powerful/main.c`.

The C function operates on `unsigned long int`; it is modelled here at the
LP64 width, so every arithmetic step that can overflow in C (the squaring
`divisor * divisor` and the increments of `divisor`) is taken modulo
`W = 2 ^ 64`.  The residual `number` only ever shrinks, and the counter
`exponent` is compared with 1 only after a strip loop has exited, which for
divisors ≥ 2 happens after at most 64 iterations, so those two variables
never reach the wrap-around point in any comparison that is executed; they
are kept as plain naturals.

The control flow of `ispowerful` is transcribed as a small-step machine:
one state per loop of the C function, one transition per loop iteration
or fallthrough, and a `done` state carrying the `int` return value.
-/

/-- LP64 modulus for `unsigned long int`. -/
def W : Nat := 2 ^ 64

/-- Control states of `ispowerful` (ispowerful.c lines 29-74):
`s2 n e` is the factor-2 loop with residual `n` and exponent `e`;
`s3 n e` the factor-3 loop; `wcond d n` the evaluation of the `for`
condition `divisor * divisor <= number`; `w1 d n e` the first inner
`while` (stripping `divisor`); `w2 d n e` the second inner `while`
(stripping `divisor + 2`, the increment already applied to `d`);
`done r` a `return r`. -/
inductive St where
  | s2 : Nat → Nat → St
  | s3 : Nat → Nat → St
  | wcond : Nat → Nat → St
  | w1 : Nat → Nat → Nat → St
  | w2 : Nat → Nat → Nat → St
  | done : Int → St
deriving DecidableEq

/-- One step of `ispowerful`.  Each branch transcribes the corresponding
C source line; `&&& 1` and `>>> 1` mirror the bitwise `& 1` and `>>= 1`
of the factor-2 loop, and the divisor updates are reduced mod `W` exactly
where the C `unsigned long` arithmetic wraps. -/
def step : St → St
  | .s2 n e => if n &&& 1 = 0 then .s2 (n >>> 1) (e + 1)
      else if e = 1 then .done 0 else .s3 n 0
  | .s3 n e => if n % 3 = 0 then .s3 (n / 3) (e + 1)
      else if e = 1 then .done 0 else .wcond 5 n
  | .wcond d n => if d * d % W ≤ n then .w1 d n 0
      else if n = 1 then .done 1 else .done 0
  | .w1 d n e => if n % d = 0 then .w1 d (n / d) (e + 1)
      else if e = 1 then .done 0 else .w2 ((d + 2) % W) n 0
  | .w2 d n e => if n % d = 0 then .w2 d (n / d) (e + 1)
      else if e = 1 then .done 0 else .wcond ((d + 4) % W) n
  | .done r => .done r

/-- Entry into `ispowerful`: the zero test (line 33-34), then the
factor-2 loop with `exponent = 0`. -/
def init (n : Nat) : St := if n = 0 then .done (-1) else .s2 n 0

/-- Fuel-indexed execution of the machine. -/
def run : Nat → St → St
  | 0, s => s
  | f + 1, s => run f (step s)

/-- The observable outcome of `ispowerful n` after `fuel` steps:
`some r` when the function has returned `r`, `none` when it is still
running. -/
def result (n fuel : Nat) : Option Int :=
  match run fuel (init n) with
  | .done r => some r
  | _ => none

/-- The spec-side predicate: every prime factor occurs with exponent ≥ 2. -/
def PowerfulNat (n : Nat) : Prop :=
  ∀ p : Nat, p.Prime → p ∣ n → 2 ≤ n.factorization p

/-- Instrumented step: same transition as `step`, and additionally the list
of trial divisors whose stripping loop is entered at this step (the moment
the C code starts testing that candidate). -/
def stepT : St → St × List Nat
  | .wcond d n => if d * d % W ≤ n then (.w1 d n 0, [d])
      else if n = 1 then (.done 1, []) else (.done 0, [])
  | .w1 d n e => if n % d = 0 then (.w1 d (n / d) (e + 1), [])
      else if e = 1 then (.done 0, []) else (.w2 ((d + 2) % W) n 0, [(d + 2) % W])
  | s => (step s, [])

/-- Instrumented run: final state plus the trace of wheel candidates tested. -/
def runT : Nat → St → St × List Nat
  | 0, s => (s, [])
  | f + 1, s => ((runT f (stepT s).1).1, (stepT s).2 ++ (runT f (stepT s).1).2)

/-- The wheel 5, 7, 11, 13, 17, 19, …: all naturals ≥ 5 coprime to 6,
in increasing order. -/
def wheelSeq (i : Nat) : Nat := 6 * (i / 2) + (if i % 2 = 0 then 5 else 7)

/-- Pure meaning of a C strip loop `while (r % d == 0) { r /= d; ++e; }`:
the final residual and the number of iterations performed, for `d ≥ 2` and
a positive residual (elsewhere the loop either diverges or never runs). -/
def stripIter (d : Nat) (r : Nat) : Nat × Nat :=
  if h : 2 ≤ d ∧ 0 < r ∧ r % d = 0 then
    ((stripIter d (r / d)).1, (stripIter d (r / d)).2 + 1)
  else (r, 0)
termination_by r
decreasing_by exact Nat.div_lt_self h.2.1 h.1

/-- The factor-2 loop exactly as written in the source (lines 37-40),
with the bitwise test `(number & 1) == 0` and the shift `number >>= 1`,
run on `fuel` credits; `none` means the loop is still running. -/
def strip2Bit : Nat → Nat → Nat → Option (Nat × Nat)
  | 0, r, e => if r &&& 1 = 0 then none else some (r, e)
  | f + 1, r, e => if r &&& 1 = 0 then strip2Bit f (r >>> 1) (e + 1) else some (r, e)

/-- The arithmetic formulation the source comments give for the same loop:
`number % 2 == 0` and `number /= 2`. -/
def strip2Arith : Nat → Nat → Nat → Option (Nat × Nat)
  | 0, r, e => if r % 2 = 0 then none else some (r, e)
  | f + 1, r, e => if r % 2 = 0 then strip2Arith f (r / 2) (e + 1) else some (r, e)

/-- A concrete wheel checkpoint (≡ 5 mod 6) whose squaring wraps to
`W - 7` modulo `W`.  Because wheel residuals reaching large checkpoints
are 1 or prime, and the naturals in `(W - 8, W)` that are coprime to 6
are all composite, the `for` condition is false here, so no run of the
wheel loop ever proceeds past this divisor. -/
def exitDiv : Nat := 1852311383259529397

/-- Binary modular exponentiation, processing one bit of the exponent per
fuel credit: `powModAux f m a e acc` computes `acc * a ^ e % m` whenever
`e < 2 ^ f`. -/
def powModAux : Nat → Nat → Nat → Nat → Nat → Nat
  | 0, m, _, _, acc => acc % m
  | f + 1, m, a, e, acc =>
    if e = 0 then acc % m
    else powModAux f m (a * a % m) (e / 2) (if e % 2 = 1 then acc * a % m else acc)

/-- `a ^ e % m` for exponents below `2 ^ 64`, computable by kernel
reduction. -/
def powMod (m a e : Nat) : Nat := powModAux 64 m (a % m) e 1

/-- The prime `18446744030759879743 ≥ (2^32 - 5)²` used to exhibit the
divisor-squaring overflow: a run of `ispowerful` on this input strips
nothing and passes every wheel checkpoint up to `2^32 - 5`, so the `for`
condition is next evaluated at divisor `2^32 + 1`, whose square exceeds
`2^64`.  Its primality is certified below via `lucas_primality`, using
`bigPrime - 1 = 2 · 3⁴ · 173 · 307 · 6257 · 6899 · 49667` and the
witness 3. -/
def bigPrime : Nat := 18446744030759879743

/-- Auxiliary invariant for inputs below `(2^32 - 5)²`: the residual never
exceeds the input, and the wheel divisor stays below `2^32 - 5`, so its
square never reaches `2^64`. -/
def Ksmall (n : Nat) : St → Prop
  | .s2 r _ => r ≤ n
  | .s3 r _ => r ≤ n
  | .wcond d r => r ≤ n ∧ d ≤ 4294967291
  | .w1 d r _ => r ≤ n ∧ d ≤ 4294967285
  | .w2 c r _ => r ≤ n ∧ c ≤ 4294967287
  | .done _ => True

/-- States of the guarded wheel algorithm exactly as the specification
describes it (modelled from the spec's §4.3 steps 1-3): strip 2, strip 3,
then for each wheel candidate in turn — advancing `+2, +4, +2, …` from 5 —
test the guard `divisor * divisor <= remaining_value` before stripping
that candidate.  This differs from the C code only in that the guard is
re-checked before the second candidate of each round. -/
inductive StG where
  | g2 : Nat → Nat → StG
  | g3 : Nat → Nat → StG
  | gcond : Nat → Nat → StG
  | gstrip : Nat → Nat → Nat → StG
  | gdone : Int → StG
deriving DecidableEq

/-- The wheel successor: `+2` after a `5 mod 6` candidate, `+4` after a
`1 mod 6` candidate, with the same `unsigned long` wrap as the code. -/
def nextWheel (c : Nat) : Nat := if c % 6 = 5 then (c + 2) % W else (c + 4) % W

/-- One step of the guarded algorithm the spec describes. -/
def stepG : StG → StG
  | .g2 n e => if n % 2 = 0 then .g2 (n / 2) (e + 1)
      else if e = 1 then .gdone 0 else .g3 n 0
  | .g3 n e => if n % 3 = 0 then .g3 (n / 3) (e + 1)
      else if e = 1 then .gdone 0 else .gcond 5 n
  | .gcond c n => if c * c % W ≤ n then .gstrip c n 0
      else if n = 1 then .gdone 1 else .gdone 0
  | .gstrip c n e => if n % c = 0 then .gstrip c (n / c) (e + 1)
      else if e = 1 then .gdone 0 else .gcond (nextWheel c) n
  | .gdone r => .gdone r

/-- Entry of the guarded algorithm. -/
def initG (n : Nat) : StG := if n = 0 then .gdone (-1) else .g2 n 0

/-- Fuel-indexed execution of the guarded algorithm. -/
def runG : Nat → StG → StG
  | 0, s => s
  | f + 1, s => runG f (stepG s)

/-- Observable outcome of the guarded algorithm. -/
def resultG (n fuel : Nat) : Option Int :=
  match runG fuel (initG n) with
  | .gdone r => some r
  | _ => none

/-- Invariant of the guarded algorithm, mirroring `MachInv`: here the
candidate may sit on either wheel rail (5 or 1 mod 6). -/
def GInv : StG → Prop
  | .g2 r _ => 0 < r ∧ r < W
  | .g3 r _ => 0 < r ∧ r < W ∧ r % 2 ≠ 0
  | .gcond c r => 0 < r ∧ r < W ∧ (c % 6 = 5 ∨ c % 6 = 1) ∧ 5 ≤ c ∧ c ≤ exitDiv ∧
      (∀ p : Nat, p.Prime → p ∣ r → c ≤ p) ∧ (r = 1 ∨ r.Prime ∨ c * c ≤ r)
  | .gstrip c r _ => 0 < r ∧ r < W ∧ (c % 6 = 5 ∨ c % 6 = 1) ∧ 5 ≤ c ∧ c < exitDiv ∧
      (∀ p : Nat, p.Prime → p ∣ r → c ≤ p)
  | .gdone _ => True

/-- The whitespace characters `strtol` skips in the C locale. -/
def isSpace (ch : Char) : Bool :=
  ch == ' ' || ch == '\t' || ch == '\n' ||
  ch == Char.ofNat 11 || ch == Char.ofNat 12 || ch == '\r'

/-- The value of a digit character in the given base, `none` when the
character is not a digit of that base. -/
def digitVal (base : Nat) (ch : Char) : Option Nat :=
  let v : Option Nat :=
    if '0' ≤ ch ∧ ch ≤ '9' then some (ch.toNat - '0'.toNat)
    else if 'a' ≤ ch ∧ ch ≤ 'z' then some (ch.toNat - 'a'.toNat + 10)
    else if 'A' ≤ ch ∧ ch ≤ 'Z' then some (ch.toNat - 'A'.toNat + 10)
    else none
  match v with
  | some d => if d < base then some d else none
  | none => none

/-- Parse a maximal digit string in the given base: the accumulated
magnitude and the number of digit characters consumed. -/
def parseDigits (base : Nat) : List Char → Nat → Nat × Nat
  | [], acc => (acc, 0)
  | ch :: rest, acc =>
      match digitVal base ch with
      | some d => ((parseDigits base rest (acc * base + d)).1,
          (parseDigits base rest (acc * base + d)).2 + 1)
      | none => (acc, 0)

/-- `strtol(s, NULL, 0)` on an LP64 platform: optional whitespace, an
optional sign, auto-detected base (`0x`/`0X` hex when followed by a hex
digit, leading `0` octal, else decimal), a maximal digit string, clamping
to `LONG_MAX`/`LONG_MIN` with the `ERANGE` flag on overflow.  Returns
(value, ERANGE flag, number of digits consumed); with no digits the value
is 0 and `errno` is untouched. -/
def strtol0Full (s : List Char) : Int × Bool × Nat :=
  let s1 := s.dropWhile (fun ch => isSpace ch)
  let neg : Bool :=
    match s1 with
    | '-' :: _ => true
    | _ => false
  let s2 : List Char :=
    match s1 with
    | '-' :: rest => rest
    | '+' :: rest => rest
    | _ => s1
  let base : Nat :=
    match s2 with
    | '0' :: 'x' :: rest => if (digitVal 16 (rest.headD 'z')).isSome then 16 else 8
    | '0' :: 'X' :: rest => if (digitVal 16 (rest.headD 'z')).isSome then 16 else 8
    | '0' :: _ => 8
    | _ => 10
  let s3 : List Char :=
    match s2 with
    | '0' :: 'x' :: rest => if (digitVal 16 (rest.headD 'z')).isSome then rest else s2
    | '0' :: 'X' :: rest => if (digitVal 16 (rest.headD 'z')).isSome then rest else s2
    | _ => s2
  let parsed := parseDigits base s3 0
  if parsed.2 = 0 then (0, false, 0)
  else if neg then
    if 2 ^ 63 < parsed.1 then (-(2 ^ 63 : Int), true, parsed.2)
    else (-(parsed.1 : Int), false, parsed.2)
  else
    if 2 ^ 63 - 1 < parsed.1 then ((2 ^ 63 - 1 : Int), true, parsed.2)
    else ((parsed.1 : Int), false, parsed.2)

/-- The (value, ERANGE) view of `strtol` that `main` consumes. -/
def strtol0 (s : List Char) : Int × Bool :=
  ((strtol0Full s).1, (strtol0Full s).2.1)

/-- The CLI `main` of powerful/main.c as a function from the argument
vector to (exit status, argument passed to `ispowerful` if it is called):
wrong argument count prints usage and fails; `errno == ERANGE` after
`strtol` fails; a negative value fails; otherwise the value is cast to
`unsigned long` and handed to the core, and `main` exits successfully. -/
def mainModel (args : List (List Char)) : Nat × Option Nat :=
  match args with
  | [_, arg] =>
      if (strtol0 arg).2 then (1, none)
      else if (strtol0 arg).1 < 0 then (1, none)
      else (0, some (strtol0 arg).1.toNat)
  | _ => (1, none)

/-- The index into `wheelSeq` at which the trace still to be produced from
a given machine state continues: the factor-2/3 phases have produced
nothing (index 0); at the `for` condition with divisor `6j + 5` the
candidates `wheelSeq (2j), wheelSeq (2j+1), …` are still to come; inside
the first inner `while` the candidate `wheelSeq (2j)` has been emitted;
inside the second both candidates of the round have been. -/
def traceBase : St → Nat
  | .s2 _ _ => 0
  | .s3 _ _ => 0
  | .wcond d _ => 2 * ((d - 5) / 6)
  | .w1 d _ _ => 2 * ((d - 5) / 6) + 1
  | .w2 c _ _ => 2 * ((c - 7) / 6) + 2
  | .done _ => 0

/-- Global invariant of the `ispowerful` machine, for runs started from
`init n` with `1 ≤ n < W`: the residual is positive, representable, and
stripped of every candidate below the current divisor; wheel divisors stay
on the 5 mod 6 / 1 mod 6 rails and never pass `exitDiv`; a residual that
is neither 1 nor prime still dominates the square of the checkpoint; and
inside the first inner `while` the `for` guard held for the residual the
candidate was tested on. -/
def MachInv : St → Prop
  | .s2 r _ => 0 < r ∧ r < W
  | .s3 r _ => 0 < r ∧ r < W ∧ r % 2 ≠ 0
  | .wcond d r => 0 < r ∧ r < W ∧ d % 6 = 5 ∧ 5 ≤ d ∧ d ≤ exitDiv ∧
      (∀ p : Nat, p.Prime → p ∣ r → d ≤ p) ∧ (r = 1 ∨ r.Prime ∨ d * d ≤ r)
  | .w1 d r e => 0 < r ∧ r < W ∧ d % 6 = 5 ∧ 5 ≤ d ∧ d + 6 ≤ exitDiv ∧
      (∀ p : Nat, p.Prime → p ∣ r → d ≤ p) ∧ d * d % W ≤ r * d ^ e
  | .w2 c r _ => 0 < r ∧ r < W ∧ c % 6 = 1 ∧ 7 ≤ c ∧ c + 4 ≤ exitDiv ∧
      (∀ p : Nat, p.Prime → p ∣ r → c ≤ p)
  | .done _ => True

lemma run_add (a b : Nat) (s : St) : run (a + b) s = run b (run a s) := by
  induction a generalizing s with
  | zero => simp [run]
  | succ a ih =>
      have : a + 1 + b = a + b + 1 := by omega
      rw [this]
      show run (a + b) (step s) = run b (run a (step s))
      exact ih (step s)

lemma run_done (f : Nat) (r : Int) : run f (.done r) = .done r := by
  induction f with
  | zero => rfl
  | succ f ih => simpa [run, step] using ih

lemma run_done_of_le {f f' : Nat} {s : St} {r : Int}
    (hle : f ≤ f') (h : run f s = .done r) : run f' s = .done r := by
  obtain ⟨k, rfl⟩ := Nat.exists_eq_add_of_le hle
  rw [run_add, h, run_done]

lemma result_eq_some_iff {n f : Nat} {r : Int} :
    result n f = some r ↔ run f (init n) = .done r := by
  unfold result
  cases h : run f (init n) <;> simp

lemma result_mono {n f f' : Nat} {r : Int}
    (hle : f ≤ f') (h : result n f = some r) : result n f' = some r :=
  result_eq_some_iff.mpr (run_done_of_le hle (result_eq_some_iff.mp h))

lemma result_det {n f f' : Nat} {r r' : Int}
    (h : result n f = some r) (h' : result n f' = some r') : r = r' := by
  rcases Nat.le_total f f' with hle | hle
  · have := result_mono hle h
    rw [this] at h'; exact Option.some_inj.mp h'
  · have := result_mono hle h'
    rw [this] at h; exact (Option.some_inj.mp h).symm

lemma stripIter_mul (d r : Nat) : (stripIter d r).1 * d ^ (stripIter d r).2 = r := by
  induction r using Nat.strong_induction_on with
  | _ r ih =>
    rw [stripIter]
    split
    case isTrue h =>
      obtain ⟨hd, hr, hmod⟩ := h
      have hlt : r / d < r := Nat.div_lt_self hr hd
      have hih := ih (r / d) hlt
      simp only [pow_succ, ← mul_assoc, hih]
      exact Nat.div_mul_cancel (Nat.dvd_of_mod_eq_zero hmod)
    case isFalse h => simp

lemma stripIter_pos (d : Nat) {r : Nat} (hr : 0 < r) : 0 < (stripIter d r).1 := by
  induction r using Nat.strong_induction_on with
  | _ r ih =>
    rw [stripIter]
    split
    case isTrue h =>
      have hlt : r / d < r := Nat.div_lt_self h.2.1 h.1
      have hpos : 0 < r / d :=
        Nat.div_pos (Nat.le_of_dvd h.2.1 (Nat.dvd_of_mod_eq_zero h.2.2)) (by omega)
      exact ih (r / d) hlt hpos
    case isFalse h => simpa using hr

lemma stripIter_mod (d : Nat) {r : Nat} (hd : 2 ≤ d) (hr : 0 < r) :
    (stripIter d r).1 % d ≠ 0 := by
  induction r using Nat.strong_induction_on with
  | _ r ih =>
    rw [stripIter]
    split
    case isTrue h =>
      have hlt : r / d < r := Nat.div_lt_self h.2.1 h.1
      have hpos : 0 < r / d :=
        Nat.div_pos (Nat.le_of_dvd h.2.1 (Nat.dvd_of_mod_eq_zero h.2.2)) (by omega)
      exact ih (r / d) hlt hpos
    case isFalse h =>
      simp only
      intro hmod
      exact h ⟨hd, hr, hmod⟩

lemma stripIter_not_dvd (d : Nat) {r : Nat} (hd : 2 ≤ d) (hr : 0 < r) :
    ¬ d ∣ (stripIter d r).1 := by
  intro hdvd
  exact stripIter_mod d hd hr (Nat.eq_zero_of_dvd_of_lt hdvd |> fun _ => Nat.mod_eq_zero_of_dvd hdvd)

lemma w1_run (d : Nat) (hd : 2 ≤ d) :
    ∀ r, 0 < r → ∀ e, ∃ k, run k (.w1 d r e) =
      (if e + (stripIter d r).2 = 1 then .done 0
       else .w2 ((d + 2) % W) (stripIter d r).1 0) := by
  intro r
  induction r using Nat.strong_induction_on with
  | _ r ih =>
    intro hr e
    rcases Nat.eq_zero_or_pos (r % d) with hmod | hmod
    · have hlt : r / d < r := Nat.div_lt_self hr hd
      have hpos : 0 < r / d :=
        Nat.div_pos (Nat.le_of_dvd hr (Nat.dvd_of_mod_eq_zero hmod)) (by omega)
      obtain ⟨k, hk⟩ := ih (r / d) hlt hpos (e + 1)
      refine ⟨k + 1, ?_⟩
      have hstep : step (.w1 d r e) = .w1 d (r / d) (e + 1) := by
        simp [step, hmod]
      have hsi : stripIter d r =
          ((stripIter d (r / d)).1, (stripIter d (r / d)).2 + 1) := by
        rw [stripIter]; simp [hd, hr, hmod]
      show run k (step (.w1 d r e)) = _
      rw [hstep, hk, hsi]
      have : e + ((stripIter d (r / d)).2 + 1) = e + 1 + (stripIter d (r / d)).2 := by omega
      rw [this]
    · refine ⟨1, ?_⟩
      have hne : ¬ r % d = 0 := by omega
      have hsi : stripIter d r = (r, 0) := by
        rw [stripIter]; simp [hne]
      show step (.w1 d r e) = _
      rw [hsi]
      simp [step, hne]

lemma w2_run (d : Nat) (hd : 2 ≤ d) :
    ∀ r, 0 < r → ∀ e, ∃ k, run k (.w2 d r e) =
      (if e + (stripIter d r).2 = 1 then .done 0
       else .wcond ((d + 4) % W) (stripIter d r).1) := by
  intro r
  induction r using Nat.strong_induction_on with
  | _ r ih =>
    intro hr e
    rcases Nat.eq_zero_or_pos (r % d) with hmod | hmod
    · have hlt : r / d < r := Nat.div_lt_self hr hd
      have hpos : 0 < r / d :=
        Nat.div_pos (Nat.le_of_dvd hr (Nat.dvd_of_mod_eq_zero hmod)) (by omega)
      obtain ⟨k, hk⟩ := ih (r / d) hlt hpos (e + 1)
      refine ⟨k + 1, ?_⟩
      have hstep : step (.w2 d r e) = .w2 d (r / d) (e + 1) := by
        simp [step, hmod]
      have hsi : stripIter d r =
          ((stripIter d (r / d)).1, (stripIter d (r / d)).2 + 1) := by
        rw [stripIter]; simp [hd, hr, hmod]
      show run k (step (.w2 d r e)) = _
      rw [hstep, hk, hsi]
      have : e + ((stripIter d (r / d)).2 + 1) = e + 1 + (stripIter d (r / d)).2 := by omega
      rw [this]
    · refine ⟨1, ?_⟩
      have hne : ¬ r % d = 0 := by omega
      have hsi : stripIter d r = (r, 0) := by
        rw [stripIter]; simp [hne]
      show step (.w2 d r e) = _
      rw [hsi]
      simp [step, hne]

lemma s2_run : ∀ r, 0 < r → ∀ e, ∃ k, run k (.s2 r e) =
    (if e + (stripIter 2 r).2 = 1 then .done 0 else .s3 (stripIter 2 r).1 0) := by
  intro r
  induction r using Nat.strong_induction_on with
  | _ r ih =>
    intro hr e
    rcases Nat.eq_zero_or_pos (r % 2) with hmod | hmod
    · have hlt : r / 2 < r := Nat.div_lt_self hr (by omega)
      have hpos : 0 < r / 2 :=
        Nat.div_pos (Nat.le_of_dvd hr (Nat.dvd_of_mod_eq_zero hmod)) (by omega)
      obtain ⟨k, hk⟩ := ih (r / 2) hlt hpos (e + 1)
      refine ⟨k + 1, ?_⟩
      have hstep : step (.s2 r e) = .s2 (r / 2) (e + 1) := by
        simp [step, Nat.and_one_is_mod, Nat.shiftRight_succ, Nat.shiftRight_zero, hmod]
      have hsi : stripIter 2 r =
          ((stripIter 2 (r / 2)).1, (stripIter 2 (r / 2)).2 + 1) := by
        rw [stripIter]; simp [hr, hmod]
      show run k (step (.s2 r e)) = _
      rw [hstep, hk, hsi]
      have : e + ((stripIter 2 (r / 2)).2 + 1) = e + 1 + (stripIter 2 (r / 2)).2 := by omega
      rw [this]
    · refine ⟨1, ?_⟩
      have hne : ¬ r % 2 = 0 := by omega
      have hsi : stripIter 2 r = (r, 0) := by
        rw [stripIter]; simp [hne]
      show step (.s2 r e) = _
      rw [hsi]
      simp [step, Nat.and_one_is_mod, hne]

lemma s3_run : ∀ r, 0 < r → ∀ e, ∃ k, run k (.s3 r e) =
    (if e + (stripIter 3 r).2 = 1 then .done 0 else .wcond 5 (stripIter 3 r).1) := by
  intro r
  induction r using Nat.strong_induction_on with
  | _ r ih =>
    intro hr e
    rcases Nat.eq_zero_or_pos (r % 3) with hmod | hmod
    · have hlt : r / 3 < r := Nat.div_lt_self hr (by omega)
      have hpos : 0 < r / 3 :=
        Nat.div_pos (Nat.le_of_dvd hr (Nat.dvd_of_mod_eq_zero hmod)) (by omega)
      obtain ⟨k, hk⟩ := ih (r / 3) hlt hpos (e + 1)
      refine ⟨k + 1, ?_⟩
      have hstep : step (.s3 r e) = .s3 (r / 3) (e + 1) := by
        simp [step, hmod]
      have hsi : stripIter 3 r =
          ((stripIter 3 (r / 3)).1, (stripIter 3 (r / 3)).2 + 1) := by
        rw [stripIter]; simp [hr, hmod]
      show run k (step (.s3 r e)) = _
      rw [hstep, hk, hsi]
      have : e + ((stripIter 3 (r / 3)).2 + 1) = e + 1 + (stripIter 3 (r / 3)).2 := by omega
      rw [this]
    · refine ⟨1, ?_⟩
      have hne : ¬ r % 3 = 0 := by omega
      have hsi : stripIter 3 r = (r, 0) := by
        rw [stripIter]; simp [hne]
      show step (.s3 r e) = _
      rw [hsi]
      simp [step, hne]

lemma stepT_fst (s : St) : (stepT s).1 = step s := by
  cases s <;> simp only [stepT, step] <;> (try rfl) <;>
    (split <;> (try rfl) <;> split <;> rfl)

lemma runT_fst (f : Nat) (s : St) : (runT f s).1 = run f s := by
  induction f generalizing s with
  | zero => rfl
  | succ f ih =>
      show (runT f (stepT s).1).1 = run f (step s)
      rw [stepT_fst]
      exact ih (step s)

lemma runT_trace_succ (f : Nat) (s : St) :
    (runT (f + 1) s).2 = (stepT s).2 ++ (runT f (stepT s).1).2 := rfl

lemma done_value_step {s : St} {r : Int} (hs : ∀ v : Int, s ≠ .done v)
    (h : step s = .done r) : r = 0 ∨ r = 1 := by
  cases s with
  | s2 n e =>
      simp only [step] at h
      split at h
      · exact absurd h (by simp)
      · split at h
        · exact Or.inl (by injection h with h; omega)
        · exact absurd h (by simp)
  | s3 n e =>
      simp only [step] at h
      split at h
      · exact absurd h (by simp)
      · split at h
        · exact Or.inl (by injection h with h; omega)
        · exact absurd h (by simp)
  | wcond d n =>
      simp only [step] at h
      split at h
      · exact absurd h (by simp)
      · split at h
        · exact Or.inr (by injection h with h; omega)
        · exact Or.inl (by injection h with h; omega)
  | w1 d n e =>
      simp only [step] at h
      split at h
      · exact absurd h (by simp)
      · split at h
        · exact Or.inl (by injection h with h; omega)
        · exact absurd h (by simp)
  | w2 d n e =>
      simp only [step] at h
      split at h
      · exact absurd h (by simp)
      · split at h
        · exact Or.inl (by injection h with h; omega)
        · exact absurd h (by simp)
  | done v => exact absurd rfl (hs v)

lemma run_done_value {s : St} (hs : ∀ v : Int, s ≠ .done v) :
    ∀ {f : Nat} {r : Int}, run f s = .done r → r = 0 ∨ r = 1 := by
  intro f
  induction f generalizing s with
  | zero => intro r h; exact absurd h (hs r)
  | succ f ih =>
      intro r h
      have h' : run f (step s) = .done r := h
      by_cases hd : ∃ v : Int, step s = .done v
      · obtain ⟨v, hv⟩ := hd
        have hrunv : run f (step s) = .done v := by rw [hv, run_done]
        have hrv : r = v := by
          have := h'.symm.trans hrunv
          injection this
        exact hrv ▸ done_value_step hs hv
      · push_neg at hd
        exact ih hd h'

lemma trace_one_aux : ∀ f : Nat,
    (runT f (.s2 1 0)).2 = [] ∧ (runT f (.s3 1 0)).2 = [] ∧
    (runT f (.wcond 5 1)).2 = [] ∧ (runT f (.done 1)).2 = [] := by
  intro f
  induction f with
  | zero => exact ⟨rfl, rfl, rfl, rfl⟩
  | succ f ih =>
      have h1 : stepT (.s2 1 0) = (.s3 1 0, []) := by decide
      have h2 : stepT (.s3 1 0) = (.wcond 5 1, []) := by decide
      have h3 : stepT (.wcond 5 1) = (.done 1, []) := by decide
      have h4 : stepT (.done 1) = (.done 1, []) := by decide
      refine ⟨?_, ?_, ?_, ?_⟩
      · rw [runT_trace_succ, h1]; simpa using ih.2.1
      · rw [runT_trace_succ, h2]; simpa using ih.2.2.1
      · rw [runT_trace_succ, h3]; simpa using ih.2.2.2
      · rw [runT_trace_succ, h4]; simpa using ih.2.2.2

/-- C7: `ispowerful(1)` returns 1 (Powerful), and this outcome arises from
the iterative procedure itself: the run on input 1 passes through the
factor-2 loop, the factor-3 loop and the wheel condition at divisor 5
without any stripping, tests no wheel candidate at all (empty trace, so no
exponent-1 factor is ever found and the wheel body never executes), reaches
the final residual 1, and returns 1. -/
theorem c7_one_powerful :
    run 1 (init 1) = .s3 1 0 ∧ run 2 (init 1) = .wcond 5 1 ∧
    run 3 (init 1) = .done 1 ∧ (∀ f : Nat, (runT f (init 1)).2 = []) ∧
    result 1 3 = some 1 := by
  refine ⟨by decide, by decide, by decide, ?_, by decide⟩
  intro f
  have : init 1 = .s2 1 0 := by decide
  rw [this]
  exact (trace_one_aux f).1

/-- C10: the bitwise factor-2 loop (`(number & 1) == 0`, `number >>= 1`)
computes exactly the same residual and exponent count as the arithmetic
formulation (`number % 2 == 0`, `number /= 2`), for every unsigned input,
every starting exponent, and every fuel budget (including the diverging
input 0, where both sides return `none`). -/
theorem c10_bitwise_strip_equiv :
    ∀ fuel r e : Nat, strip2Bit fuel r e = strip2Arith fuel r e := by
  intro fuel
  induction fuel with
  | zero =>
      intro r e
      simp [strip2Bit, strip2Arith, Nat.and_one_is_mod]
  | succ f ih =>
      intro r e
      simp only [strip2Bit, strip2Arith, Nat.and_one_is_mod,
        Nat.shiftRight_succ, Nat.shiftRight_zero]
      split
      · exact ih (r / 2) (e + 1)
      · rfl

/-- C2: every value `ispowerful` ever returns is 1, 0 or -1, and it is -1
exactly for input 0; for n ≥ 1 the result, whenever the function returns,
is 0 or 1 regardless of magnitude. -/
theorem c2_tristate (n : Nat) (hn : n < W) (fuel : Nat) (r : Int)
    (h : result n fuel = some r) :
    (r = 1 ∨ r = 0 ∨ r = -1) ∧ (r = -1 ↔ n = 0) := by
  rcases Nat.eq_zero_or_pos n with rfl | hpos
  · have hrun : run fuel (init 0) = .done (-1) := by
      have h0 : init 0 = .done (-1) := rfl
      rw [h0]; exact run_done _ _
    have hr : r = -1 := by
      have := (result_eq_some_iff.mp h).symm.trans hrun
      injection this
    subst hr
    exact ⟨Or.inr (Or.inr rfl), by simp⟩
  · have hs : ∀ v : Int, init n ≠ .done v := by
      intro v
      unfold init
      rw [if_neg (by omega)]
      simp
    have hval := run_done_value hs (result_eq_some_iff.mp h)
    have hne : n ≠ 0 := by omega
    rcases hval with h0 | h1
    · subst h0
      refine ⟨Or.inr (Or.inl rfl), ?_⟩
      constructor
      · intro hc; exact absurd hc (by norm_num)
      · intro hc; exact absurd hc hne
    · subst h1
      refine ⟨Or.inl rfl, ?_⟩
      constructor
      · intro hc; exact absurd hc (by norm_num)
      · intro hc; exact absurd hc hne

/-- Witness for C2 at the concrete input 0 with fuel 0. -/
theorem c2_witness :
    ((-1 : Int) = 1 ∨ (-1 : Int) = 0 ∨ (-1 : Int) = -1) ∧
    ((-1 : Int) = -1 ↔ (0 : Nat) = 0) :=
  c2_tristate 0 (by norm_num [W]) 0 (-1) rfl

lemma W_lit : W = 18446744073709551616 := by norm_num [W]

lemma exitDiv_facts :
    exitDiv % 6 = 5 ∧ 2 ^ 32 < exitDiv ∧ exitDiv + 11 ≤ W ∧
    exitDiv * exitDiv % W = W - 7 := by
  refine ⟨by norm_num [exitDiv], by norm_num [exitDiv], by norm_num [exitDiv, W], ?_⟩
  norm_num [exitDiv, W]

lemma not_prime_Wm3 : ¬ (W - 3).Prime := by
  have h : W - 3 = 13 * 1418980313362273201 := by norm_num [W]
  rw [h]
  exact Nat.not_prime_mul (by norm_num) (by norm_num)

lemma not_prime_Wm5 : ¬ (W - 5).Prime := by
  have h : W - 5 = 11 * 1676976733973595601 := by norm_num [W]
  rw [h]
  exact Nat.not_prime_mul (by norm_num) (by norm_num)

lemma prime_mod_six {p : Nat} (hp : p.Prime) (h5 : 5 ≤ p) :
    p % 6 = 1 ∨ p % 6 = 5 := by
  have h2 : ¬ 2 ∣ p := by
    intro hdvd
    have := (Nat.prime_dvd_prime_iff_eq Nat.prime_two hp).mp hdvd
    omega
  have h3 : ¬ 3 ∣ p := by
    intro hdvd
    have := (Nat.prime_dvd_prime_iff_eq Nat.prime_three hp).mp hdvd
    omega
  have hm2 : p % 2 ≠ 0 := fun hc => h2 (Nat.dvd_of_mod_eq_zero hc)
  have hm3 : p % 3 ≠ 0 := fun hc => h3 (Nat.dvd_of_mod_eq_zero hc)
  omega

lemma odd_sq_mod_W {x : Nat} (hx : x < W) (hodd : x % 2 = 1)
    (hsq : x * x % W = 1) : x % 6 = 1 ∨ x % 6 = 3 := by
  have hWl : W = 18446744073709551616 := W_lit
  have hxx : x * x = W * (x * x / W) + 1 := by
    conv_lhs => rw [← Nat.div_add_mod (x * x) W]
    rw [hsq]
  have h4 : x % 4 = 1 ∨ x % 4 = 3 := by omega
  rcases h4 with h4 | h4
  · obtain ⟨a, ha⟩ : ∃ a, x = 4 * a + 1 := ⟨x / 4, by omega⟩
    have key8 : 8 * (a * (2 * a + 1)) = 8 * (2 ^ 61 * (x * x / W)) := by
      have expand : x * x = 16 * a * a + 8 * a + 1 := by subst ha; ring
      calc 8 * (a * (2 * a + 1)) = 16 * a * a + 8 * a := by ring
        _ = W * (x * x / W) := by omega
        _ = 8 * (2 ^ 61 * (x * x / W)) := by rw [hWl]; ring
    have key : a * (2 * a + 1) = 2 ^ 61 * (x * x / W) := by omega
    have hcop : Nat.Coprime (2 ^ 61) (2 * a + 1) :=
      Nat.Coprime.pow_left _ ((Nat.prime_two.coprime_iff_not_dvd).mpr (by omega))
    have hdvd : 2 ^ 61 ∣ a :=
      hcop.dvd_of_dvd_mul_right ⟨x * x / W, key⟩
    obtain ⟨b, hb⟩ := hdvd
    have hxb : x = 2 ^ 63 * b + 1 := by subst ha; subst hb; ring
    have hb2 : b < 2 := by
      by_contra hc
      push_neg at hc
      have := Nat.mul_le_mul_left (2 ^ 63) hc
      omega
    interval_cases b <;> omega
  · obtain ⟨a, ha⟩ : ∃ a, x = 4 * a + 3 := ⟨x / 4, by omega⟩
    have key8 : 8 * ((2 * a + 1) * (a + 1)) = 8 * (2 ^ 61 * (x * x / W)) := by
      have expand : x * x = 16 * a * a + 24 * a + 9 := by subst ha; ring
      calc 8 * ((2 * a + 1) * (a + 1)) = 16 * a * a + 24 * a + 8 := by ring
        _ = W * (x * x / W) := by omega
        _ = 8 * (2 ^ 61 * (x * x / W)) := by rw [hWl]; ring
    have key : (2 * a + 1) * (a + 1) = 2 ^ 61 * (x * x / W) := by omega
    have hcop : Nat.Coprime (2 ^ 61) (2 * a + 1) :=
      Nat.Coprime.pow_left _ ((Nat.prime_two.coprime_iff_not_dvd).mpr (by omega))
    have hdvd : 2 ^ 61 ∣ a + 1 :=
      hcop.dvd_of_dvd_mul_left ⟨x * x / W, key⟩
    obtain ⟨b, hb⟩ := hdvd
    have hb1 : 1 ≤ b := by
      rcases Nat.eq_zero_or_pos b with rfl | hpos
      · omega
      · exact hpos
    have hxb : x = 2 ^ 63 * b - 1 := by omega
    have hb2 : b ≤ 2 := by
      by_contra hc
      push_neg at hc
      have : 2 ^ 63 * 3 ≤ 2 ^ 63 * b := Nat.mul_le_mul_left (2 ^ 63) hc
      omega
    interval_cases b <;> omega

lemma composite_square_le {m c : Nat} (hm : 2 ≤ m) (hnp : ¬ m.Prime)
    (h : ∀ p : Nat, p.Prime → p ∣ m → c ≤ p) : c * c ≤ m := by
  have hmf : m.minFac.Prime := Nat.minFac_prime (by omega)
  have hmfd := Nat.minFac_dvd m
  have h1 : c ≤ m.minFac := h _ hmf hmfd
  obtain ⟨k, hk⟩ := hmfd
  have hk1 : k ≠ 1 := by
    rintro rfl
    rw [mul_one] at hk
    exact hnp (hk ▸ hmf)
  have hk0 : k ≠ 0 := by
    rintro rfl
    rw [mul_zero] at hk
    omega
  obtain ⟨q, hq, hqd⟩ := Nat.exists_prime_and_dvd hk1
  have hqm : q ∣ m := hk ▸ Dvd.dvd.mul_left hqd _
  have h2 : c ≤ q := h _ hq hqm
  have h3 : q ≤ k := Nat.le_of_dvd (by omega) hqd
  calc c * c ≤ m.minFac * k := Nat.mul_le_mul h1 (le_trans h2 h3)
    _ = m := hk.symm

lemma prime_five_le {p : Nat} (hp : p.Prime) (h2 : p ≠ 2) (h3 : p ≠ 3) : 5 ≤ p := by
  have hge := hp.two_le
  by_contra hc
  push_neg at hc
  interval_cases p
  · exact h2 rfl
  · exact h3 rfl
  · exact (by norm_num : ¬ (4 : Nat).Prime) hp

lemma no_large_prime {n : Nat} (hn : n.Prime) (hW : n < W) : n ≤ W - 8 := by
  by_contra h
  push_neg at h
  have hWl := W_lit
  have hcase : n = W - 7 ∨ n = W - 6 ∨ n = W - 5 ∨ n = W - 4 ∨ n = W - 3 ∨
      n = W - 2 ∨ n = W - 1 := by omega
  rcases hcase with hv | hv | hv | hv | hv | hv | hv <;> subst hv
  · exact Nat.not_prime_mul (a := 3) (b := 6148914691236517203)
      (by norm_num) (by norm_num) (by rw [show W - 7 = 3 * 6148914691236517203 by omega] at hn; exact hn)
  · exact Nat.not_prime_mul (a := 2) (b := 9223372036854775805)
      (by norm_num) (by norm_num) (by rw [show W - 6 = 2 * 9223372036854775805 by omega] at hn; exact hn)
  · exact not_prime_Wm5 hn
  · exact Nat.not_prime_mul (a := 2) (b := 9223372036854775806)
      (by norm_num) (by norm_num) (by rw [show W - 4 = 2 * 9223372036854775806 by omega] at hn; exact hn)
  · exact not_prime_Wm3 hn
  · exact Nat.not_prime_mul (a := 2) (b := 9223372036854775807)
      (by norm_num) (by norm_num) (by rw [show W - 2 = 2 * 9223372036854775807 by omega] at hn; exact hn)
  · exact Nat.not_prime_mul (a := 3) (b := 6148914691236517205)
      (by norm_num) (by norm_num) (by rw [show W - 1 = 3 * 6148914691236517205 by omega] at hn; exact hn)

lemma shiftRight_one_eq (n : Nat) : n >>> 1 = n / 2 := by
  simp [Nat.shiftRight_succ, Nat.shiftRight_zero]

lemma div_dvd_self {d r : Nat} (hdvd : d ∣ r) : r / d ∣ r :=
  ⟨d, (Nat.div_mul_cancel hdvd).symm⟩

lemma machInv_step {s : St} (h : MachInv s) : MachInv (step s) := by
  cases s with
  | s2 r e =>
      obtain ⟨hr, hrW⟩ := h
      simp only [step]
      split
      case isTrue hcond =>
        rw [Nat.and_one_is_mod] at hcond
        rw [shiftRight_one_eq]
        exact ⟨by omega, by omega⟩
      case isFalse hcond =>
        rw [Nat.and_one_is_mod] at hcond
        split
        case isTrue => trivial
        case isFalse => exact ⟨hr, hrW, hcond⟩
  | s3 r e =>
      obtain ⟨hr, hrW, hodd⟩ := h
      simp only [step]
      split
      case isTrue hcond =>
        exact ⟨by omega, by omega, by omega⟩
      case isFalse hcond =>
        split
        case isTrue => trivial
        case isFalse =>
          have hprimes : ∀ p : Nat, p.Prime → p ∣ r → 5 ≤ p := by
            intro p hp hpd
            have h2 : p ≠ 2 := by
              rintro rfl
              exact hodd (Nat.mod_eq_zero_of_dvd hpd)
            have h3 : p ≠ 3 := by
              rintro rfl
              exact hcond (Nat.mod_eq_zero_of_dvd hpd)
            exact prime_five_le hp h2 h3
          refine ⟨hr, hrW, by norm_num, by norm_num, ?_, hprimes, ?_⟩
          · have := exitDiv_facts.2.1
            omega
          · by_cases h1 : r = 1
            · exact Or.inl h1
            by_cases hpr : r.Prime
            · exact Or.inr (Or.inl hpr)
            exact Or.inr (Or.inr (composite_square_le (by omega) hpr hprimes))
  | wcond d r =>
      obtain ⟨hr, hrW, hd6, hd5, hdE, hprimes, hsize⟩ := h
      simp only [step]
      split
      case isTrue hcond =>
        have hdlt : d < exitDiv := by
          rcases Nat.lt_or_ge d exitDiv with hlt | hge
          · exact hlt
          · exfalso
            have hdE' : d = exitDiv := le_antisymm hdE hge
            subst hdE'
            rw [exitDiv_facts.2.2.2] at hcond
            have hWl := W_lit
            rcases hsize with h1 | hpr | hbig
            · omega
            · have := no_large_prime hpr hrW
              omega
            · have h32 : 2 ^ 32 < exitDiv := exitDiv_facts.2.1
              have hsq : W ≤ exitDiv * exitDiv := by
                have hm : (2 : Nat) ^ 32 * 2 ^ 32 ≤ exitDiv * exitDiv :=
                  Nat.mul_le_mul (le_of_lt h32) (le_of_lt h32)
                calc W = 2 ^ 32 * 2 ^ 32 := by norm_num [W]
                  _ ≤ exitDiv * exitDiv := hm
              omega
        have hE6 : exitDiv % 6 = 5 := exitDiv_facts.1
        refine ⟨hr, hrW, hd6, hd5, by omega, hprimes, ?_⟩
        simpa using hcond
      case isFalse hcond =>
        split
        case isTrue => trivial
        case isFalse => trivial
  | w1 d r e =>
      obtain ⟨hr, hrW, hd6, hd5, hdE, hprimes, hguard⟩ := h
      simp only [step]
      split
      case isTrue hcond =>
        have hdvd : d ∣ r := Nat.dvd_of_mod_eq_zero hcond
        refine ⟨?_, ?_, hd6, hd5, hdE, ?_, ?_⟩
        · exact Nat.div_pos (Nat.le_of_dvd hr hdvd) (by omega)
        · have := Nat.div_le_self r d
          omega
        · intro p hp hpd
          exact hprimes p hp (hpd.trans (div_dvd_self hdvd))
        · have hrw : r / d * d ^ (e + 1) = r * d ^ e := by
            rw [pow_succ]
            calc r / d * (d ^ e * d) = r / d * d * d ^ e := by ring
              _ = r * d ^ e := by rw [Nat.div_mul_cancel hdvd]
          rw [hrw]
          exact hguard
      case isFalse hcond =>
        split
        case isTrue => trivial
        case isFalse =>
          have hE11 := exitDiv_facts.2.2.1
          have hmod : (d + 2) % W = d + 2 := Nat.mod_eq_of_lt (by omega)
          rw [hmod]
          refine ⟨hr, hrW, by omega, by omega, by omega, ?_⟩
          intro p hp hpd
          have hge := hprimes p hp hpd
          have hne : p ≠ d := by
            rintro rfl
            exact hcond (Nat.mod_eq_zero_of_dvd hpd)
          have hm := prime_mod_six hp (by omega)
          omega
  | w2 c r e =>
      obtain ⟨hr, hrW, hc6, hc7, hcE, hprimes⟩ := h
      simp only [step]
      split
      case isTrue hcond =>
        have hdvd : c ∣ r := Nat.dvd_of_mod_eq_zero hcond
        refine ⟨?_, ?_, hc6, hc7, hcE, ?_⟩
        · exact Nat.div_pos (Nat.le_of_dvd hr hdvd) (by omega)
        · have := Nat.div_le_self r c
          omega
        · intro p hp hpd
          exact hprimes p hp (hpd.trans (div_dvd_self hdvd))
      case isFalse hcond =>
        split
        case isTrue => trivial
        case isFalse =>
          have hE11 := exitDiv_facts.2.2.1
          have hmod : (c + 4) % W = c + 4 := Nat.mod_eq_of_lt (by omega)
          rw [hmod]
          have hprimes' : ∀ p : Nat, p.Prime → p ∣ r → c + 4 ≤ p := by
            intro p hp hpd
            have hge := hprimes p hp hpd
            have hne : p ≠ c := by
              rintro rfl
              exact hcond (Nat.mod_eq_zero_of_dvd hpd)
            have hm := prime_mod_six hp (by omega)
            omega
          refine ⟨hr, hrW, by omega, by omega, by omega, hprimes', ?_⟩
          by_cases h1 : r = 1
          · exact Or.inl h1
          by_cases hpr : r.Prime
          · exact Or.inr (Or.inl hpr)
          exact Or.inr (Or.inr (composite_square_le (by omega) hpr hprimes'))
  | done r => trivial

lemma machInv_run {s : St} (h : MachInv s) (f : Nat) : MachInv (run f s) := by
  induction f generalizing s with
  | zero => exact h
  | succ f ih => exact ih (machInv_step h)

lemma machInv_init {n : Nat} (h1 : 1 ≤ n) (hW : n < W) : MachInv (init n) := by
  unfold init
  rw [if_neg (by omega)]
  exact ⟨by omega, hW⟩

lemma stripIter_count_pos {d r : Nat} (hd : 2 ≤ d) (hr : 0 < r) (hdvd : d ∣ r) :
    1 ≤ (stripIter d r).2 := by
  rw [stripIter, dif_pos ⟨hd, hr, Nat.mod_eq_zero_of_dvd hdvd⟩]
  simp

lemma stripIter_count_zero {d r : Nat} (h : ¬ d ∣ r) : stripIter d r = (r, 0) := by
  rw [stripIter, dif_neg]
  rintro ⟨_, _, hmod⟩
  exact h (Nat.dvd_of_mod_eq_zero hmod)

lemma stripIter_factorization {d r : Nat} (hd : d.Prime) (hr : 0 < r) :
    r.factorization d = (stripIter d r).2 := by
  have hmul := stripIter_mul d r
  have hres : ¬ d ∣ (stripIter d r).1 := stripIter_not_dvd d hd.two_le hr
  have hrespos : 0 < (stripIter d r).1 := stripIter_pos d hr
  conv_lhs => rw [← hmul]
  rw [Nat.factorization_mul (by omega) (pow_ne_zero _ (by have := hd.two_le; omega)),
    Nat.Prime.factorization_pow hd]
  simp [Nat.factorization_eq_zero_of_not_dvd hres]

lemma stripIter_factorization_ne {d r p : Nat} (hd : d.Prime) (hr : 0 < r)
    (hp : p ≠ d) : ((stripIter d r).1).factorization p = r.factorization p := by
  have hmul := stripIter_mul d r
  have hrespos : 0 < (stripIter d r).1 := stripIter_pos d hr
  conv_rhs => rw [← hmul]
  rw [Nat.factorization_mul (by omega) (pow_ne_zero _ (by have := hd.two_le; omega)),
    Nat.Prime.factorization_pow hd]
  simp only [Finsupp.coe_add, Pi.add_apply, Finsupp.single_apply,
    if_neg (fun h : d = p => hp h.symm), add_zero]

lemma prime_of_min_le {d r : Nat} (h2 : 2 ≤ d) (hdvd : d ∣ r)
    (hfloor : ∀ p : Nat, p.Prime → p ∣ r → d ≤ p) : d.Prime := by
  have hmf : d.minFac.Prime := Nat.minFac_prime (by omega)
  have hmr : d.minFac ∣ r := (Nat.minFac_dvd d).trans hdvd
  have hge : d ≤ d.minFac := hfloor _ hmf hmr
  have hle : d.minFac ≤ d := Nat.minFac_le (by omega)
  exact Nat.prime_def_minFac.mpr ⟨h2, le_antisymm hle hge⟩

lemma powerful_one : PowerfulNat 1 := by
  intro p hp hpd
  have := Nat.eq_one_of_dvd_one hpd
  subst this
  exact absurd hp Nat.not_prime_one

lemma not_powerful_of_exp_one {r q : Nat} (hq : q.Prime) (hdvd : q ∣ r)
    (hexp : r.factorization q = 1) : ¬ PowerfulNat r := by
  intro hpow
  have := hpow q hq hdvd
  omega

lemma powerful_strip_iff {d r : Nat} (hr : 0 < r) (hd2 : 2 ≤ d)
    (hdp : d ∣ r → d.Prime) (hk : (stripIter d r).2 ≠ 1) :
    (PowerfulNat r ↔ PowerfulNat (stripIter d r).1) := by
  by_cases hdvd : d ∣ r
  · have hdprime := hdp hdvd
    have hk1 : 1 ≤ (stripIter d r).2 := stripIter_count_pos hd2 hr hdvd
    have hk2 : 2 ≤ (stripIter d r).2 := by omega
    have hndr : ¬ d ∣ (stripIter d r).1 := stripIter_not_dvd d hd2 hr
    have hmul := stripIter_mul d r
    constructor
    · intro hpow p hp hpd
      have hpr : p ∣ r := hpd.trans ⟨d ^ (stripIter d r).2, hmul.symm⟩
      have hpne : p ≠ d := by
        rintro rfl
        exact hndr hpd
      have := hpow p hp hpr
      rwa [stripIter_factorization_ne hdprime hr hpne]
    · intro hpow p hp hpd
      by_cases hpde : p = d
      · subst hpde
        rw [stripIter_factorization hdprime hr]
        omega
      · have hpr' : p ∣ (stripIter d r).1 := by
          rcases (Nat.Prime.dvd_mul hp).mp (by rw [hmul]; exact hpd) with hc | hc
          · exact hc
          · exfalso
            have hpd2 : p ∣ d := hp.dvd_of_dvd_pow hc
            exact hpde ((Nat.prime_dvd_prime_iff_eq hp hdprime).mp hpd2)
        have := hpow p hp hpr'
        rw [stripIter_factorization_ne hdprime hr hpde] at this
        exact this
  · rw [stripIter_count_zero hdvd]

lemma run_one (s : St) : run 1 s = step s := rfl

lemma wheel_correct : ∀ m d r : Nat, exitDiv - d = m → MachInv (.wcond d r) →
    ∃ k : Nat, ∃ res : Int, run k (.wcond d r) = .done res ∧
      (res = 0 ∨ res = 1) ∧ (res = 1 ↔ PowerfulNat r) := by
  intro m
  induction m using Nat.strong_induction_on with
  | _ m ih =>
    intro d r hm hinv
    obtain ⟨hr, hrW, hd6, hd5, hdE, hprimes, hsize⟩ := hinv
    by_cases hcond : d * d % W ≤ r
    · have hstep1 : step (.wcond d r) = .w1 d r 0 := by simp [step, hcond]
      have hinvW : MachInv (.wcond d r) := ⟨hr, hrW, hd6, hd5, hdE, hprimes, hsize⟩
      have hinv1 : MachInv (.w1 d r 0) := hstep1 ▸ machInv_step hinvW
      obtain ⟨-, -, -, -, hd6E, -, -⟩ := hinv1
      have hE11 := exitDiv_facts.2.2.1
      obtain ⟨kk1, hkk1⟩ := w1_run d (by omega) r hr 0
      have hmodd2 : (d + 2) % W = d + 2 := Nat.mod_eq_of_lt (by omega)
      rw [hmodd2] at hkk1
      have hr'pos : 0 < (stripIter d r).1 := stripIter_pos d hr
      have hdp1 : d ∣ r → d.Prime := fun hdvd => prime_of_min_le (by omega) hdvd hprimes
      by_cases hk1 : (stripIter d r).2 = 1
      · rw [if_pos (by omega)] at hkk1
        refine ⟨1 + kk1, 0, ?_, Or.inl rfl, ?_⟩
        · rw [run_add, run_one, hstep1, hkk1]
        · constructor
          · intro h; exact absurd h (by norm_num)
          · intro hpow
            exfalso
            have hdvd : d ∣ r := by
              by_contra hnd
              rw [stripIter_count_zero hnd] at hk1
              simp at hk1
            have hdprime := hdp1 hdvd
            exact not_powerful_of_exp_one hdprime hdvd
              (by rw [stripIter_factorization hdprime hr]; exact hk1) hpow
      · rw [if_neg (by omega)] at hkk1
        have hrun2 : run (1 + kk1) (.wcond d r) = .w2 (d + 2) (stripIter d r).1 0 := by
          rw [run_add, run_one, hstep1, hkk1]
        have hinv2 : MachInv (.w2 (d + 2) (stripIter d r).1 0) := by
          rw [← hrun2]
          exact machInv_run hinvW (1 + kk1)
        obtain ⟨-, -, -, -, -, hfloor2⟩ := hinv2
        obtain ⟨kk2, hkk2⟩ := w2_run (d + 2) (by omega) (stripIter d r).1 hr'pos 0
        have hmodd6 : (d + 2 + 4) % W = d + 6 := by
          have h246 : d + 2 + 4 = d + 6 := by omega
          rw [h246]
          exact Nat.mod_eq_of_lt (by omega)
        rw [hmodd6] at hkk2
        have hr''pos : 0 < (stripIter (d + 2) (stripIter d r).1).1 := stripIter_pos _ hr'pos
        have hdp2 : (d + 2) ∣ (stripIter d r).1 → (d + 2).Prime :=
          fun hdvd => prime_of_min_le (by omega) hdvd hfloor2
        by_cases hk2 : (stripIter (d + 2) (stripIter d r).1).2 = 1
        · rw [if_pos (by omega)] at hkk2
          refine ⟨1 + kk1 + kk2, 0, ?_, Or.inl rfl, ?_⟩
          · rw [run_add, hrun2, hkk2]
          · constructor
            · intro h; exact absurd h (by norm_num)
            · intro hpow
              exfalso
              have hdvd2 : (d + 2) ∣ (stripIter d r).1 := by
                by_contra hnd
                rw [stripIter_count_zero hnd] at hk2
                simp at hk2
              have hcprime := hdp2 hdvd2
              have hfr' : ((stripIter d r).1).factorization (d + 2) = 1 := by
                rw [stripIter_factorization hcprime hr'pos]
                exact hk2
              have hcr : (d + 2) ∣ r :=
                hdvd2.trans ⟨d ^ (stripIter d r).2, (stripIter_mul d r).symm⟩
              have hfr : r.factorization (d + 2) = 1 := by
                by_cases hdvd : d ∣ r
                · have hdprime := hdp1 hdvd
                  rw [← stripIter_factorization_ne hdprime hr (by omega)]
                  exact hfr'
                · rw [stripIter_count_zero hdvd] at hfr'
                  exact hfr'
              exact not_powerful_of_exp_one hcprime hcr hfr hpow
        · rw [if_neg (by omega)] at hkk2
          have hrun3 : run (1 + kk1 + kk2) (.wcond d r) =
              .wcond (d + 6) (stripIter (d + 2) (stripIter d r).1).1 := by
            rw [run_add, hrun2, hkk2]
          have hinv3 : MachInv (.wcond (d + 6) (stripIter (d + 2) (stripIter d r).1).1) := by
            rw [← hrun3]
            exact machInv_run hinvW (1 + kk1 + kk2)
          obtain ⟨k3, res, hrunf, hres01, hiff⟩ :=
            ih (exitDiv - (d + 6)) (by omega) (d + 6) _ rfl hinv3
          refine ⟨1 + kk1 + kk2 + k3, res, ?_, hres01, ?_⟩
          · rw [run_add, hrun3, hrunf]
          · have hiff1 : PowerfulNat r ↔ PowerfulNat (stripIter d r).1 :=
              powerful_strip_iff hr (by omega) hdp1 hk1
            have hiff2 : PowerfulNat (stripIter d r).1 ↔
                PowerfulNat (stripIter (d + 2) (stripIter d r).1).1 :=
              powerful_strip_iff hr'pos (by omega) hdp2 hk2
            exact hiff.trans (hiff2.symm.trans hiff1.symm)
    · by_cases hr1 : r = 1
      · subst hr1
        refine ⟨1, 1, ?_, Or.inr rfl, iff_of_true rfl powerful_one⟩
        show step (.wcond d 1) = .done 1
        simp [step, hcond]
      · refine ⟨1, 0, ?_, Or.inl rfl, ?_⟩
        · show step (.wcond d r) = .done 0
          simp [step, hcond, hr1]
        · constructor
          · intro h; exact absurd h (by norm_num)
          · intro hpow
            exfalso
            rcases hsize with h1 | hpr | hbig
            · exact hr1 h1
            · exact not_powerful_of_exp_one hpr dvd_rfl
                (Nat.Prime.factorization_self hpr) hpow
            · have hdd : d * d < W := by omega
              rw [Nat.mod_eq_of_lt hdd] at hcond
              omega

lemma ispowerful_total_correct {n : Nat} (h1 : 1 ≤ n) (hW : n < W) :
    ∃ fuel : Nat, ∃ res : Int, result n fuel = some res ∧ (res = 0 ∨ res = 1) ∧
      (res = 1 ↔ PowerfulNat n) := by
  have hinit : init n = .s2 n 0 := by
    unfold init
    rw [if_neg (by omega)]
  obtain ⟨ka, hka⟩ := s2_run n (by omega) 0
  by_cases hk1 : (stripIter 2 n).2 = 1
  · rw [if_pos (by omega)] at hka
    refine ⟨ka, 0, ?_, Or.inl rfl, ?_⟩
    · rw [result_eq_some_iff, hinit, hka]
    · constructor
      · intro h; exact absurd h (by norm_num)
      · intro hpow
        exfalso
        have hdvd : 2 ∣ n := by
          by_contra hnd
          rw [stripIter_count_zero hnd] at hk1
          simp at hk1
        exact not_powerful_of_exp_one Nat.prime_two hdvd
          (by rw [stripIter_factorization Nat.prime_two (by omega)]; exact hk1) hpow
  · rw [if_neg (by omega)] at hka
    have hr1pos : 0 < (stripIter 2 n).1 := stripIter_pos 2 (by omega)
    obtain ⟨kb, hkb⟩ := s3_run (stripIter 2 n).1 hr1pos 0
    by_cases hk2 : (stripIter 3 (stripIter 2 n).1).2 = 1
    · rw [if_pos (by omega)] at hkb
      refine ⟨ka + kb, 0, ?_, Or.inl rfl, ?_⟩
      · rw [result_eq_some_iff, hinit, run_add, hka, hkb]
      · constructor
        · intro h; exact absurd h (by norm_num)
        · intro hpow
          exfalso
          have hdvd : 3 ∣ (stripIter 2 n).1 := by
            by_contra hnd
            rw [stripIter_count_zero hnd] at hk2
            simp at hk2
          have hf1 : ((stripIter 2 n).1).factorization 3 = 1 := by
            rw [stripIter_factorization Nat.prime_three hr1pos]
            exact hk2
          have h3n : 3 ∣ n := hdvd.trans ⟨2 ^ (stripIter 2 n).2, (stripIter_mul 2 n).symm⟩
          have hfn : n.factorization 3 = 1 := by
            rw [← stripIter_factorization_ne Nat.prime_two (by omega)
              (by norm_num : (3 : Nat) ≠ 2)]
            exact hf1
          exact not_powerful_of_exp_one Nat.prime_three h3n hfn hpow
    · rw [if_neg (by omega)] at hkb
      have hrunW : run (ka + kb) (init n) = .wcond 5 (stripIter 3 (stripIter 2 n).1).1 := by
        rw [hinit, run_add, hka, hkb]
      have hinvW : MachInv (.wcond 5 (stripIter 3 (stripIter 2 n).1).1) := by
        have hmach := machInv_run (machInv_init h1 hW) (ka + kb)
        rwa [hrunW] at hmach
      obtain ⟨k3, res, hrunf, hres01, hiff⟩ :=
        wheel_correct (exitDiv - 5) 5 _ rfl hinvW
      refine ⟨ka + kb + k3, res, ?_, hres01, ?_⟩
      · rw [result_eq_some_iff, run_add, hrunW, hrunf]
      · have hiff1 : PowerfulNat n ↔ PowerfulNat (stripIter 2 n).1 :=
          powerful_strip_iff (by omega) (by norm_num) (fun _ => Nat.prime_two) hk1
        have hiff2 : PowerfulNat (stripIter 2 n).1 ↔
            PowerfulNat (stripIter 3 (stripIter 2 n).1).1 :=
          powerful_strip_iff hr1pos (by norm_num) (fun _ => Nat.prime_three) hk2
        exact hiff.trans (hiff2.symm.trans hiff1.symm)

/-- C1: for every `1 ≤ n < 2^64`, `ispowerful n` returns, and the returned
value is 1 exactly when every prime in the factorization of `n` has
exponent ≥ 2, and 0 exactly otherwise.  The bound `n < 2^64` is the full
representable range of the LP64 `unsigned long`: no further exclusion is
made near the top of the range. -/
theorem c1_classification (n : Nat) (h1 : 1 ≤ n) (hW : n < W) :
    ∃ fuel : Nat, ∃ res : Int, result n fuel = some res ∧
      (res = 1 ↔ PowerfulNat n) ∧ (res = 0 ↔ ¬ PowerfulNat n) := by
  obtain ⟨fuel, res, hres, h01, hiff⟩ := ispowerful_total_correct h1 hW
  refine ⟨fuel, res, hres, hiff, ?_⟩
  constructor
  · intro h0 hpow
    have := hiff.mpr hpow
    omega
  · intro hnp
    rcases h01 with h | h
    · exact h
    · exact absurd (hiff.mp h) hnp

/-- Witness for C1 at the concrete input 4 = 2². -/
theorem c1_witness :
    ∃ fuel : Nat, ∃ res : Int, result 4 fuel = some res ∧
      (res = 1 ↔ PowerfulNat 4) ∧ (res = 0 ↔ ¬ PowerfulNat 4) :=
  c1_classification 4 (by norm_num) (by norm_num [W])

/-- C3: for every representable `n`, `ispowerful n` terminates (some fuel
yields a returned value) — in particular the wheel loop terminates even
though `divisor * divisor` is computed mod `2^64` — and the function is
deterministic: any two returning runs on the same input agree. -/
theorem c3_total_deterministic (n : Nat) (hW : n < W) :
    (∃ fuel : Nat, ∃ res : Int, result n fuel = some res) ∧
    (∀ f f' : Nat, ∀ r r' : Int, result n f = some r → result n f' = some r' → r = r') := by
  constructor
  · rcases Nat.eq_zero_or_pos n with rfl | hpos
    · exact ⟨0, -1, rfl⟩
    · obtain ⟨fuel, res, hres, -, -⟩ := ispowerful_total_correct hpos hW
      exact ⟨fuel, res, hres⟩
  · intro f f' r r' h h'
    exact result_det h h'

/-- Witness for C3 at the concrete input 0. -/
theorem c3_witness :
    (∃ fuel : Nat, ∃ res : Int, result 0 fuel = some res) ∧
    (∀ f f' : Nat, ∀ r r' : Int, result 0 f = some r → result 0 f' = some r' → r = r') :=
  c3_total_deterministic 0 (by norm_num [W])

/-- C8: whenever the wheel-loop condition is evaluated with divisor `d` and
residual `r` during a run on `1 ≤ n < 2^64`, `r` has no prime factor
smaller than `d`; consequently a composite candidate divisor (at either of
the two inner `while` loops) never divides the residual, so its stripping
loop runs zero times. -/
theorem c8_wheel_invariant (n fuel : Nat) (h1 : 1 ≤ n) (hW : n < W) :
    (∀ d r : Nat, run fuel (init n) = .wcond d r →
      (∀ p : Nat, p.Prime → p ∣ r → d ≤ p) ∧ (¬ d.Prime → r % d ≠ 0)) ∧
    (∀ d r e : Nat, run fuel (init n) = .w1 d r e → ¬ d.Prime → r % d ≠ 0) ∧
    (∀ c r e : Nat, run fuel (init n) = .w2 c r e → ¬ c.Prime → r % c ≠ 0) := by
  have hmach := machInv_run (machInv_init h1 hW) fuel
  refine ⟨?_, ?_, ?_⟩
  · intro d r hrun
    rw [hrun] at hmach
    obtain ⟨hr, -, -, hd5, -, hfloor, -⟩ := hmach
    refine ⟨hfloor, ?_⟩
    intro hnp hmod
    exact hnp (prime_of_min_le (by omega) (Nat.dvd_of_mod_eq_zero hmod) hfloor)
  · intro d r e hrun
    rw [hrun] at hmach
    obtain ⟨hr, -, -, hd5, -, hfloor, -⟩ := hmach
    intro hnp hmod
    exact hnp (prime_of_min_le (by omega) (Nat.dvd_of_mod_eq_zero hmod) hfloor)
  · intro c r e hrun
    rw [hrun] at hmach
    obtain ⟨hr, -, -, hc7, -, hfloor⟩ := hmach
    intro hnp hmod
    exact hnp (prime_of_min_le (by omega) (Nat.dvd_of_mod_eq_zero hmod) hfloor)

/-- Witness for C8: the run on 25 reaches the wheel condition with divisor
5 and residual 25, whose prime factors are all ≥ 5. -/
theorem c8_witness :
    (∀ p : Nat, p.Prime → p ∣ 25 → 5 ≤ p) ∧ (¬ (5 : Nat).Prime → 25 % 5 ≠ 0) :=
  (c8_wheel_invariant 25 2 (by norm_num) (by norm_num [W])).1 5 25 (by decide)

lemma wheelSeq_even (j : Nat) : wheelSeq (2 * j) = 6 * j + 5 := by
  have h1 : 2 * j / 2 = j := by omega
  have h2 : 2 * j % 2 = 0 := by omega
  simp [wheelSeq, h1, h2]

lemma wheelSeq_odd (j : Nat) : wheelSeq (2 * j + 1) = 6 * j + 7 := by
  have h1 : (2 * j + 1) / 2 = j := by omega
  have h2 : (2 * j + 1) % 2 = 1 := by omega
  simp [wheelSeq, h1, h2]

lemma runT_trace_done (f : Nat) (v : Int) : (runT f (.done v)).2 = [] := by
  induction f with
  | zero => rfl
  | succ f ih =>
      rw [runT_trace_succ]
      have h : stepT (.done v) = (.done v, []) := rfl
      rw [h]
      simpa using ih

lemma wheel_prefix_cons (b l : Nat) :
    wheelSeq b :: (List.range l).map (fun i => wheelSeq (b + 1 + i)) =
      (List.range (l + 1)).map (fun i => wheelSeq (b + i)) := by
  rw [List.range_succ_eq_map, List.map_cons, List.map_map]
  congr 1
  apply List.map_congr_left
  intro a _
  simp only [Function.comp_apply]
  congr 1
  omega

lemma trace_shape (f : Nat) : ∀ s : St, MachInv s →
    ∃ l : Nat, (runT f s).2 =
      (List.range l).map (fun i => wheelSeq (traceBase s + i)) := by
  induction f with
  | zero => intro s _; exact ⟨0, rfl⟩
  | succ f ih =>
    intro s hinv
    have hinv' : MachInv (step s) := machInv_step hinv
    cases s with
    | s2 n e =>
        have hstepT : stepT (.s2 n e) = (step (.s2 n e), []) := rfl
        obtain ⟨l, hl⟩ := ih (step (.s2 n e)) hinv'
        refine ⟨l, ?_⟩
        rw [runT_trace_succ, hstepT]
        show [] ++ (runT f (step (.s2 n e))).2 = _
        rw [List.nil_append, hl]
        have hbase : traceBase (step (.s2 n e)) = 0 := by
          simp only [step]
          split
          · rfl
          · split <;> rfl
        rw [hbase]
        rfl
    | s3 n e =>
        have hstepT : stepT (.s3 n e) = (step (.s3 n e), []) := rfl
        obtain ⟨l, hl⟩ := ih (step (.s3 n e)) hinv'
        refine ⟨l, ?_⟩
        rw [runT_trace_succ, hstepT]
        show [] ++ (runT f (step (.s3 n e))).2 = _
        rw [List.nil_append, hl]
        have hbase : traceBase (step (.s3 n e)) = 0 := by
          simp only [step]
          split
          · rfl
          · split <;> rfl
        rw [hbase]
        rfl
    | wcond d r =>
        obtain ⟨hr, hrW, hd6, hd5, hdE, hfloor, hsize⟩ := id hinv
        by_cases hcond : d * d % W ≤ r
        · have hstep : step (.wcond d r) = .w1 d r 0 := by simp [step, hcond]
          have hstepT : stepT (.wcond d r) = (.w1 d r 0, [d]) := by
            simp [stepT, hcond]
          rw [hstep] at hinv'
          obtain ⟨l, hl⟩ := ih (.w1 d r 0) hinv'
          refine ⟨l + 1, ?_⟩
          rw [runT_trace_succ, hstepT]
          show [d] ++ (runT f (.w1 d r 0)).2 = _
          rw [List.singleton_append, hl]
          have hb1 : traceBase (.w1 d r 0) = traceBase (.wcond d r) + 1 := rfl
          rw [hb1]
          set b := traceBase (.wcond d r) with hbdef
          have hd_eq : d = wheelSeq b := by
            rw [hbdef]
            show d = wheelSeq (2 * ((d - 5) / 6))
            rw [wheelSeq_even]
            omega
          conv_lhs => rw [hd_eq]
          exact wheel_prefix_cons b l
        · have hstep : step (.wcond d r) = (if r = 1 then St.done 1 else St.done 0) := by
            simp [step, hcond]
          have hstepT : stepT (.wcond d r) =
              ((if r = 1 then St.done 1 else St.done 0), []) := by
            simp only [stepT, if_neg hcond]
            split <;> rfl
          refine ⟨0, ?_⟩
          rw [runT_trace_succ, hstepT]
          show [] ++ (runT f (if r = 1 then St.done 1 else St.done 0)).2 = _
          rw [List.nil_append]
          by_cases hr1 : r = 1
          · rw [if_pos hr1, runT_trace_done]
            rfl
          · rw [if_neg hr1, runT_trace_done]
            rfl
    | w1 d r e =>
        obtain ⟨hr, hrW, hd6, hd5, hdE, hfloor, hguard⟩ := id hinv
        by_cases hmod : r % d = 0
        · have hstep : step (.w1 d r e) = .w1 d (r / d) (e + 1) := by
            simp [step, hmod]
          have hstepT : stepT (.w1 d r e) = (.w1 d (r / d) (e + 1), []) := by
            simp [stepT, hmod]
          rw [hstep] at hinv'
          obtain ⟨l, hl⟩ := ih _ hinv'
          refine ⟨l, ?_⟩
          rw [runT_trace_succ, hstepT]
          show [] ++ (runT f (.w1 d (r / d) (e + 1))).2 = _
          rw [List.nil_append, hl]
          rfl
        · by_cases he : e = 1
          · have hstepT : stepT (.w1 d r e) = (.done 0, []) := by
              simp [stepT, hmod, he]
            refine ⟨0, ?_⟩
            rw [runT_trace_succ, hstepT]
            show [] ++ (runT f (.done 0)).2 = _
            rw [List.nil_append, runT_trace_done]
            rfl
          · have hE11 := exitDiv_facts.2.2.1
            have hmodW : (d + 2) % W = d + 2 := Nat.mod_eq_of_lt (by omega)
            have hstep : step (.w1 d r e) = .w2 (d + 2) r 0 := by
              simp [step, hmod, he, hmodW]
            have hstepT : stepT (.w1 d r e) = (.w2 (d + 2) r 0, [d + 2]) := by
              simp [stepT, hmod, he, hmodW]
            rw [hstep] at hinv'
            obtain ⟨l, hl⟩ := ih _ hinv'
            refine ⟨l + 1, ?_⟩
            rw [runT_trace_succ, hstepT]
            show [d + 2] ++ (runT f (.w2 (d + 2) r 0)).2 = _
            rw [List.singleton_append, hl]
            have hb1 : traceBase (.w2 (d + 2) r 0) = traceBase (.w1 d r e) + 1 := by
              show 2 * ((d + 2 - 7) / 6) + 2 = 2 * ((d - 5) / 6) + 1 + 1
              omega
            rw [hb1]
            set b := traceBase (.w1 d r e) with hbdef
            have hd_eq : d + 2 = wheelSeq b := by
              rw [hbdef]
              show d + 2 = wheelSeq (2 * ((d - 5) / 6) + 1)
              rw [wheelSeq_odd]
              omega
            conv_lhs => rw [hd_eq]
            exact wheel_prefix_cons b l
    | w2 c r e =>
        obtain ⟨hr, hrW, hc6, hc7, hcE, hfloor⟩ := id hinv
        by_cases hmod : r % c = 0
        · have hstep : step (.w2 c r e) = .w2 c (r / c) (e + 1) := by
            simp [step, hmod]
          have hstepT : stepT (.w2 c r e) = (step (.w2 c r e), []) := rfl
          rw [hstep] at hinv'
          obtain ⟨l, hl⟩ := ih _ hinv'
          refine ⟨l, ?_⟩
          rw [runT_trace_succ, hstepT, hstep]
          show [] ++ (runT f (.w2 c (r / c) (e + 1))).2 = _
          rw [List.nil_append, hl]
          rfl
        · by_cases he : e = 1
          · have hstep : step (.w2 c r e) = .done 0 := by
              simp [step, hmod, he]
            have hstepT : stepT (.w2 c r e) = (step (.w2 c r e), []) := rfl
            refine ⟨0, ?_⟩
            rw [runT_trace_succ, hstepT, hstep]
            show [] ++ (runT f (.done 0)).2 = _
            rw [List.nil_append, runT_trace_done]
            rfl
          · have hE11 := exitDiv_facts.2.2.1
            have hmodW : (c + 4) % W = c + 4 := Nat.mod_eq_of_lt (by omega)
            have hstep : step (.w2 c r e) = .wcond (c + 4) r := by
              simp [step, hmod, he, hmodW]
            have hstepT : stepT (.w2 c r e) = (step (.w2 c r e), []) := rfl
            rw [hstep] at hinv'
            obtain ⟨l, hl⟩ := ih _ hinv'
            refine ⟨l, ?_⟩
            rw [runT_trace_succ, hstepT, hstep]
            show [] ++ (runT f (.wcond (c + 4) r)).2 = _
            rw [List.nil_append, hl]
            have hb1 : traceBase (.wcond (c + 4) r) = traceBase (.w2 c r e) := by
              show 2 * ((c + 4 - 5) / 6) = 2 * ((c - 7) / 6) + 2
              omega
            rw [hb1]
    | done v =>
        refine ⟨0, ?_⟩
        rw [runT_trace_done]
        rfl

/-- C4: during `ispowerful n` for `1 ≤ n < 2^64`, the wheel candidates
tested (in order of testing) are exactly an initial segment of
5, 7, 11, 13, 17, 19, … — the integers coprime to 6 in increasing order,
none skipped and none repeated, including at the boundary
`divisor * divisor == remaining_value` — and a candidate's stripping loop
at the first inner `while` is entered only when the comparison
`divisor * divisor <= remaining_value` (as computed by the code) held for
the residual that candidate was tested on. -/
theorem c4_wheel_sequence (n fuel : Nat) (h1 : 1 ≤ n) (hW : n < W) :
    (∃ m : Nat, (runT fuel (init n)).2 = (List.range m).map wheelSeq) ∧
    (∀ f d r e : Nat, run f (init n) = .w1 d r e → d * d % W ≤ r * d ^ e) := by
  constructor
  · have hinit : init n = .s2 n 0 := by
      unfold init
      rw [if_neg (by omega)]
    have hinv : MachInv (.s2 n 0) := ⟨by omega, hW⟩
    obtain ⟨l, hl⟩ := trace_shape fuel (.s2 n 0) hinv
    refine ⟨l, ?_⟩
    rw [hinit, hl]
    apply List.map_congr_left
    intro a _
    show wheelSeq (0 + a) = wheelSeq a
    rw [Nat.zero_add]
  · intro f d r e hrun
    have hmach := machInv_run (machInv_init h1 hW) f
    rw [hrun] at hmach
    obtain ⟨-, -, -, -, -, -, hguard⟩ := hmach
    exact hguard

/-- Witness for C4: on input 25 with fuel 9 the trace is the two-element
wheel prefix [5, 7]. -/
theorem c4_witness :
    (∃ m : Nat, (runT 9 (init 25)).2 = (List.range m).map wheelSeq) ∧
    (∀ f d r e : Nat, run f (init 25) = .w1 d r e → d * d % W ≤ r * d ^ e) :=
  c4_wheel_sequence 25 9 (by norm_num) (by norm_num [W])

lemma powModAux_spec : ∀ f m a e acc : Nat, e < 2 ^ f →
    powModAux f m a e acc = acc * a ^ e % m := by
  intro f
  induction f with
  | zero =>
      intro m a e acc he
      have he0 : e = 0 := by omega
      subst he0
      simp [powModAux]
  | succ f ih =>
      intro m a e acc he
      by_cases he0 : e = 0
      · subst he0
        simp [powModAux]
      · have hstep : powModAux (f + 1) m a e acc =
            powModAux f m (a * a % m) (e / 2) (if e % 2 = 1 then acc * a % m else acc) := by
          simp [powModAux, he0]
        rw [hstep, ih m (a * a % m) (e / 2) _ (by omega)]
        have h1 : (a * a % m) ≡ a * a [MOD m] := Nat.mod_modEq _ _
        have h2 : (if e % 2 = 1 then acc * a % m else acc) ≡ acc * a ^ (e % 2) [MOD m] := by
          by_cases hpar : e % 2 = 1
          · rw [if_pos hpar, hpar, pow_one]
            exact Nat.mod_modEq _ _
          · have hpar0 : e % 2 = 0 := by omega
            rw [if_neg hpar, hpar0, pow_zero, mul_one]
        have hchain : (if e % 2 = 1 then acc * a % m else acc) * (a * a % m) ^ (e / 2) ≡
            acc * a ^ (e % 2) * (a * a) ^ (e / 2) [MOD m] := h2.mul (h1.pow _)
        have hpure : acc * a ^ (e % 2) * (a * a) ^ (e / 2) = acc * a ^ e := by
          rw [show a * a = a ^ 2 from (sq a).symm, ← pow_mul, mul_assoc, ← pow_add]
          congr 2
          omega
        rw [hpure] at hchain
        exact hchain
  
lemma powMod_spec (m a e : Nat) (he : e < 2 ^ 64) : powMod m a e = a ^ e % m := by
  unfold powMod
  rw [powModAux_spec 64 m (a % m) e 1 he, one_mul, ← Nat.pow_mod]

lemma zmod_pow_eq (p a e : Nat) (he : e < 2 ^ 64) :
    ((a : Nat) : ZMod p) ^ e = ((powMod p a e : Nat) : ZMod p) := by
  rw [powMod_spec _ _ _ he, ZMod.natCast_mod, Nat.cast_pow]

lemma pow_ne_one_of_powMod (e v : Nat) (he : e < 2 ^ 64)
    (hv : powMod bigPrime 3 e = v) (hne : ¬ v % bigPrime = 1 % bigPrime) :
    ((3 : Nat) : ZMod bigPrime) ^ e ≠ 1 := by
  rw [zmod_pow_eq _ _ _ he, hv]
  intro hc
  rw [show (1 : ZMod bigPrime) = ((1 : Nat) : ZMod bigPrime) by simp] at hc
  exact hne ((ZMod.natCast_eq_natCast_iff _ _ _).mp hc)

lemma bigPrime_prime : bigPrime.Prime := by
  apply lucas_primality bigPrime ((3 : Nat) : ZMod bigPrime)
  · rw [zmod_pow_eq _ _ _ (by norm_num [bigPrime])]
    have hv : powMod bigPrime 3 (bigPrime - 1) = 1 := by decide
    rw [hv, Nat.cast_one]
  · intro q hq hqd
    have hfact : bigPrime - 1 = 2 * (3 ^ 4 * (173 * (307 * (6257 * (6899 * 49667))))) := by
      norm_num [bigPrime]
    rw [hfact] at hqd
    rcases (Nat.Prime.dvd_mul hq).mp hqd with h | h
    · have hq2 : q = 2 := (Nat.prime_dvd_prime_iff_eq hq (by norm_num)).mp h
      subst hq2
      rw [show (bigPrime - 1) / 2 = 9223372015379939871 by norm_num [bigPrime]]
      exact pow_ne_one_of_powMod _ 18446744030759879742 (by norm_num) (by decide) (by decide)
    · rcases (Nat.Prime.dvd_mul hq).mp h with h2 | h2
      · have hq3 : q = 3 := (Nat.prime_dvd_prime_iff_eq hq (by norm_num)).mp
          (hq.dvd_of_dvd_pow h2)
        subst hq3
        rw [show (bigPrime - 1) / 3 = 6148914676919959914 by norm_num [bigPrime]]
        exact pow_ne_one_of_powMod _ 12382481993201002122 (by norm_num) (by decide) (by decide)
      · rcases (Nat.Prime.dvd_mul hq).mp h2 with h3 | h3
        · have hq173 : q = 173 := (Nat.prime_dvd_prime_iff_eq hq (by norm_num)).mp h3
          subst hq173
          rw [show (bigPrime - 1) / 173 = 106628578212484854 by norm_num [bigPrime]]
          exact pow_ne_one_of_powMod _ 12163819819520216571 (by norm_num) (by decide) (by decide)
        · rcases (Nat.Prime.dvd_mul hq).mp h3 with h4 | h4
          · have hq307 : q = 307 := (Nat.prime_dvd_prime_iff_eq hq (by norm_num)).mp h4
            subst hq307
            rw [show (bigPrime - 1) / 307 = 60087114106709706 by norm_num [bigPrime]]
            exact pow_ne_one_of_powMod _ 8863169228401986999 (by norm_num) (by decide) (by decide)
          · rcases (Nat.Prime.dvd_mul hq).mp h4 with h5 | h5
            · have hq6257 : q = 6257 := (Nat.prime_dvd_prime_iff_eq hq (by norm_num)).mp h5
              subst hq6257
              rw [show (bigPrime - 1) / 6257 = 2948177086584606 by norm_num [bigPrime]]
              exact pow_ne_one_of_powMod _ 2389929208192335346 (by norm_num) (by decide) (by decide)
            · rcases (Nat.Prime.dvd_mul hq).mp h5 with h6 | h6
              · have hq6899 : q = 6899 := (Nat.prime_dvd_prime_iff_eq hq (by norm_num)).mp h6
                subst hq6899
                rw [show (bigPrime - 1) / 6899 = 2673828675280458 by norm_num [bigPrime]]
                exact pow_ne_one_of_powMod _ 6373010948199236829 (by norm_num) (by decide) (by decide)
              · have hq49667 : q = 49667 := (Nat.prime_dvd_prime_iff_eq hq (by norm_num)).mp h6
                subst hq49667
                rw [show (bigPrime - 1) / 49667 = 371408460965226 by norm_num [bigPrime]]
                exact pow_ne_one_of_powMod _ 2890400179977469478 (by norm_num) (by decide) (by decide)

lemma prime_wheel_pass {p : Nat} (hp : p.Prime) (hlo : 18446744030759878681 ≤ p)
    (hW : p < W) :
    ∀ j : Nat, 6 * j + 5 ≤ 4294967297 →
      ∃ k, run k (.wcond 5 p) = .wcond (6 * j + 5) p := by
  intro j
  induction j with
  | zero => intro _; exact ⟨0, rfl⟩
  | succ j ih =>
      intro hj
      obtain ⟨k, hk⟩ := ih (by omega)
      have hWl := W_lit
      set d := 6 * j + 5 with hd
      have hdle : d ≤ 4294967291 := by omega
      have hd2 : 2 ≤ d := by omega
      have hdd : d * d ≤ 18446744030759878681 := by
        have h := Nat.mul_le_mul hdle hdle
        norm_num at h
        exact h
      have hdltp : d + 2 < p := by omega
      have hcond : d * d % W ≤ p := by
        rw [Nat.mod_eq_of_lt (by omega)]
        omega
      have hstep1 : step (.wcond d p) = .w1 d p 0 := by simp [step, hcond]
      have hnd : ¬ d ∣ p := by
        intro hdvd
        rcases Nat.Prime.eq_one_or_self_of_dvd hp d hdvd with h | h <;> omega
      have hs1 : stripIter d p = (p, 0) := stripIter_count_zero hnd
      obtain ⟨k1, hk1⟩ := w1_run d hd2 p (by omega) 0
      have hk1' : run k1 (.w1 d p 0) = .w2 ((d + 2) % W) p 0 := by
        rw [hk1, hs1]
        simp
      rw [Nat.mod_eq_of_lt (by omega : d + 2 < W)] at hk1'
      have hnd2 : ¬ (d + 2) ∣ p := by
        intro hdvd
        rcases Nat.Prime.eq_one_or_self_of_dvd hp (d + 2) hdvd with h | h <;> omega
      have hs2 : stripIter (d + 2) p = (p, 0) := stripIter_count_zero hnd2
      obtain ⟨k2, hk2⟩ := w2_run (d + 2) (by omega) p (by omega) 0
      have hk2' : run k2 (.w2 (d + 2) p 0) = .wcond ((d + 2 + 4) % W) p := by
        rw [hk2, hs2]
        simp
      rw [Nat.mod_eq_of_lt (by omega : d + 2 + 4 < W)] at hk2'
      refine ⟨k + 1 + k1 + k2, ?_⟩
      rw [run_add, run_add, run_add, hk, run_one, hstep1, hk1', hk2']
      congr 1

lemma bigPrime_reach :
    ∃ k, run k (init bigPrime) = .wcond 4294967297 bigPrime := by
  have h0 : init bigPrime = .s2 bigPrime 0 := by
    unfold init
    rw [if_neg (by norm_num [bigPrime])]
  have hs1 : step (.s2 bigPrime 0) = .s3 bigPrime 0 := by
    simp [step, Nat.and_one_is_mod, show bigPrime % 2 = 1 by norm_num [bigPrime]]
  have hs2 : step (.s3 bigPrime 0) = .wcond 5 bigPrime := by
    simp [step, show bigPrime % 3 = 1 by norm_num [bigPrime]]
  have h2 : run 2 (init bigPrime) = .wcond 5 bigPrime := by
    have hr2 : run 2 (init bigPrime) = step (step (init bigPrime)) := rfl
    rw [hr2, h0, hs1, hs2]
  obtain ⟨k, hk⟩ := prime_wheel_pass bigPrime_prime (by norm_num [bigPrime])
    (by norm_num [bigPrime, W]) 715827882 (by norm_num)
  refine ⟨2 + k, ?_⟩
  rw [run_add, h2, hk]

lemma ksmall_step {n : Nat} (hn : n < 18446744030759878681) {s : St}
    (hinv : MachInv s) (hk : Ksmall n s) : Ksmall n (step s) := by
  have hWl := W_lit
  cases s with
  | s2 r e =>
      simp only [step]
      split
      · rw [shiftRight_one_eq]
        exact le_trans (Nat.div_le_self r 2) hk
      · split
        · trivial
        · exact hk
  | s3 r e =>
      simp only [step]
      split
      · exact le_trans (Nat.div_le_self r 3) hk
      · split
        · trivial
        · exact ⟨hk, by norm_num⟩
  | wcond d r =>
      obtain ⟨hrn, hd⟩ := hk
      obtain ⟨hr, hrW, hd6, -, -, -, -⟩ := hinv
      simp only [step]
      split
      case isTrue hcond =>
        have hdd : d * d ≤ 18446744030759878681 := by
          have h := Nat.mul_le_mul hd hd
          norm_num at h
          exact h
        rw [Nat.mod_eq_of_lt (by omega)] at hcond
        refine ⟨hrn, ?_⟩
        have hlt : d < 4294967291 := by
          by_contra hge
          push_neg at hge
          have h := Nat.mul_le_mul hge hge
          norm_num at h
          omega
        omega
      case isFalse => split <;> trivial
  | w1 d r e =>
      obtain ⟨hrn, hd⟩ := hk
      simp only [step]
      split
      · exact ⟨le_trans (Nat.div_le_self r d) hrn, hd⟩
      · split
        · trivial
        · rw [Nat.mod_eq_of_lt (by omega : d + 2 < W)]
          exact ⟨hrn, by omega⟩
  | w2 c r e =>
      obtain ⟨hrn, hc⟩ := hk
      simp only [step]
      split
      · exact ⟨le_trans (Nat.div_le_self r c) hrn, hc⟩
      · split
        · trivial
        · rw [Nat.mod_eq_of_lt (by omega : c + 4 < W)]
          exact ⟨hrn, by omega⟩
  | done v => trivial

lemma ksmall_run {n : Nat} (hn : n < 18446744030759878681) :
    ∀ (f : Nat) {s : St}, MachInv s → Ksmall n s → Ksmall n (run f s) := by
  intro f
  induction f with
  | zero => intro s _ hk; exact hk
  | succ f ih =>
      intro s hinv hk
      exact ih (machInv_step hinv) (ksmall_step hn hinv hk)

/-- C6 counterexample: it is not true that on every representable input
the comparison `divisor * divisor <= number` is evaluated without the
squaring wrapping around 2^64.  On the prime input `bigPrime`, which lies
above `(2^32 - 5)²`, the run reaches the `for` condition with divisor
`2^32 + 1`, whose square is at least `2^64`. -/
theorem c6_counterexample :
    ¬ (∀ n : Nat, n < W → ∀ fuel d r : Nat,
        run fuel (init n) = .wcond d r → d * d < W) := by
  intro hall
  obtain ⟨k, hk⟩ := bigPrime_reach
  have h := hall bigPrime (by norm_num [bigPrime, W]) k 4294967297 bigPrime hk
  norm_num [W] at h

/-- C6 (amended): for every input below `(2^32 - 5)²`, every evaluation of
the `for` condition happens with a divisor of at most `2^32 - 5`, so the
squaring `divisor * divisor` stays below `2^64` and never wraps. -/
theorem c6_no_overflow_amended (n : Nat) (hn : n < (2 ^ 32 - 5) * (2 ^ 32 - 5)) :
    ∀ fuel d r : Nat, run fuel (init n) = .wcond d r → d * d < W := by
  intro fuel d r hrun
  have hWl := W_lit
  rcases Nat.eq_zero_or_pos n with rfl | hpos
  · have hd : run fuel (init 0) = .done (-1) := by
      have h0 : init 0 = .done (-1) := rfl
      rw [h0, run_done]
    rw [hd] at hrun
    exact absurd hrun (by simp)
  · have hn' : n < 18446744030759878681 := by
      norm_num at hn
      exact hn
    have hW' : n < W := by omega
    have hki : Ksmall n (init n) := by
      unfold init
      rw [if_neg (by omega)]
      exact le_refl n
    have hks := ksmall_run hn' fuel (machInv_init hpos hW') hki
    rw [hrun] at hks
    obtain ⟨-, hd⟩ := hks
    have hdd : d * d ≤ 18446744030759878681 := by
      have h := Nat.mul_le_mul hd hd
      norm_num at h
      exact h
    omega

/-- Witness for the amended C6 at the concrete input 49: the only wheel
condition evaluated is at divisor 5, and 25 does not wrap. -/
theorem c6_witness : (5 : Nat) * 5 < W :=
  c6_no_overflow_amended 49 (by norm_num) 2 5 49 (by decide)

lemma runG_add (a b : Nat) (s : StG) : runG (a + b) s = runG b (runG a s) := by
  induction a generalizing s with
  | zero => simp [runG]
  | succ a ih =>
      have h : a + 1 + b = a + b + 1 := by omega
      rw [h]
      show runG (a + b) (stepG s) = runG b (runG a (stepG s))
      exact ih (stepG s)

lemma runG_one (s : StG) : runG 1 s = stepG s := rfl

lemma runG_done (f : Nat) (r : Int) : runG f (.gdone r) = .gdone r := by
  induction f with
  | zero => rfl
  | succ f ih => simpa [runG, stepG] using ih

lemma resultG_eq_some_iff {n f : Nat} {r : Int} :
    resultG n f = some r ↔ runG f (initG n) = .gdone r := by
  unfold resultG
  cases h : runG f (initG n) <;> simp

lemma gstrip_run (c : Nat) (hc : 2 ≤ c) :
    ∀ r, 0 < r → ∀ e, ∃ k, runG k (.gstrip c r e) =
      (if e + (stripIter c r).2 = 1 then .gdone 0
       else .gcond (nextWheel c) (stripIter c r).1) := by
  intro r
  induction r using Nat.strong_induction_on with
  | _ r ih =>
    intro hr e
    rcases Nat.eq_zero_or_pos (r % c) with hmod | hmod
    · have hlt : r / c < r := Nat.div_lt_self hr hc
      have hpos : 0 < r / c :=
        Nat.div_pos (Nat.le_of_dvd hr (Nat.dvd_of_mod_eq_zero hmod)) (by omega)
      obtain ⟨k, hk⟩ := ih (r / c) hlt hpos (e + 1)
      refine ⟨k + 1, ?_⟩
      have hstep : stepG (.gstrip c r e) = .gstrip c (r / c) (e + 1) := by
        simp [stepG, hmod]
      have hsi : stripIter c r =
          ((stripIter c (r / c)).1, (stripIter c (r / c)).2 + 1) := by
        rw [stripIter]
        simp [hc, hr, hmod]
      show runG k (stepG (.gstrip c r e)) = _
      rw [hstep, hk, hsi]
      have h : e + ((stripIter c (r / c)).2 + 1) = e + 1 + (stripIter c (r / c)).2 := by omega
      rw [h]
    · refine ⟨1, ?_⟩
      have hne : ¬ r % c = 0 := by omega
      have hsi : stripIter c r = (r, 0) := by
        rw [stripIter]
        simp [hne]
      show stepG (.gstrip c r e) = _
      rw [hsi]
      simp [stepG, hne]

lemma g2_run : ∀ r, 0 < r → ∀ e, ∃ k, runG k (.g2 r e) =
    (if e + (stripIter 2 r).2 = 1 then .gdone 0 else .g3 (stripIter 2 r).1 0) := by
  intro r
  induction r using Nat.strong_induction_on with
  | _ r ih =>
    intro hr e
    rcases Nat.eq_zero_or_pos (r % 2) with hmod | hmod
    · have hlt : r / 2 < r := Nat.div_lt_self hr (by omega)
      have hpos : 0 < r / 2 :=
        Nat.div_pos (Nat.le_of_dvd hr (Nat.dvd_of_mod_eq_zero hmod)) (by omega)
      obtain ⟨k, hk⟩ := ih (r / 2) hlt hpos (e + 1)
      refine ⟨k + 1, ?_⟩
      have hstep : stepG (.g2 r e) = .g2 (r / 2) (e + 1) := by
        simp [stepG, hmod]
      have hsi : stripIter 2 r =
          ((stripIter 2 (r / 2)).1, (stripIter 2 (r / 2)).2 + 1) := by
        rw [stripIter]
        simp [hr, hmod]
      show runG k (stepG (.g2 r e)) = _
      rw [hstep, hk, hsi]
      have h : e + ((stripIter 2 (r / 2)).2 + 1) = e + 1 + (stripIter 2 (r / 2)).2 := by omega
      rw [h]
    · refine ⟨1, ?_⟩
      have hne : ¬ r % 2 = 0 := by omega
      have hsi : stripIter 2 r = (r, 0) := by
        rw [stripIter]
        simp [hne]
      show stepG (.g2 r e) = _
      rw [hsi]
      simp [stepG, hne]

lemma g3_run : ∀ r, 0 < r → ∀ e, ∃ k, runG k (.g3 r e) =
    (if e + (stripIter 3 r).2 = 1 then .gdone 0 else .gcond 5 (stripIter 3 r).1) := by
  intro r
  induction r using Nat.strong_induction_on with
  | _ r ih =>
    intro hr e
    rcases Nat.eq_zero_or_pos (r % 3) with hmod | hmod
    · have hlt : r / 3 < r := Nat.div_lt_self hr (by omega)
      have hpos : 0 < r / 3 :=
        Nat.div_pos (Nat.le_of_dvd hr (Nat.dvd_of_mod_eq_zero hmod)) (by omega)
      obtain ⟨k, hk⟩ := ih (r / 3) hlt hpos (e + 1)
      refine ⟨k + 1, ?_⟩
      have hstep : stepG (.g3 r e) = .g3 (r / 3) (e + 1) := by
        simp [stepG, hmod]
      have hsi : stripIter 3 r =
          ((stripIter 3 (r / 3)).1, (stripIter 3 (r / 3)).2 + 1) := by
        rw [stripIter]
        simp [hr, hmod]
      show runG k (stepG (.g3 r e)) = _
      rw [hstep, hk, hsi]
      have h : e + ((stripIter 3 (r / 3)).2 + 1) = e + 1 + (stripIter 3 (r / 3)).2 := by omega
      rw [h]
    · refine ⟨1, ?_⟩
      have hne : ¬ r % 3 = 0 := by omega
      have hsi : stripIter 3 r = (r, 0) := by
        rw [stripIter]
        simp [hne]
      show stepG (.g3 r e) = _
      rw [hsi]
      simp [stepG, hne]

lemma gInv_step {s : StG} (h : GInv s) : GInv (stepG s) := by
  cases s with
  | g2 r e =>
      obtain ⟨hr, hrW⟩ := h
      simp only [stepG]
      split
      case isTrue hcond => exact ⟨by omega, by omega⟩
      case isFalse hcond =>
        split
        case isTrue => trivial
        case isFalse => exact ⟨hr, hrW, by omega⟩
  | g3 r e =>
      obtain ⟨hr, hrW, hodd⟩ := h
      simp only [stepG]
      split
      case isTrue hcond => exact ⟨by omega, by omega, by omega⟩
      case isFalse hcond =>
        split
        case isTrue => trivial
        case isFalse =>
          have hprimes : ∀ p : Nat, p.Prime → p ∣ r → 5 ≤ p := by
            intro p hp hpd
            have h2 : p ≠ 2 := by
              rintro rfl
              exact hodd (Nat.mod_eq_zero_of_dvd hpd)
            have h3 : p ≠ 3 := by
              rintro rfl
              exact hcond (Nat.mod_eq_zero_of_dvd hpd)
            exact prime_five_le hp h2 h3
          refine ⟨hr, hrW, Or.inl (by norm_num), by norm_num, ?_, hprimes, ?_⟩
          · have := exitDiv_facts.2.1
            omega
          · by_cases h1 : r = 1
            · exact Or.inl h1
            by_cases hpr : r.Prime
            · exact Or.inr (Or.inl hpr)
            exact Or.inr (Or.inr (composite_square_le (by omega) hpr hprimes))
  | gcond c r =>
      obtain ⟨hr, hrW, hc6, hc5, hcE, hprimes, hsize⟩ := h
      simp only [stepG]
      split
      case isTrue hcond =>
        have hclt : c < exitDiv := by
          have hE6 : exitDiv % 6 = 5 := exitDiv_facts.1
          rcases hc6 with hc6 | hc6
          · rcases Nat.lt_or_ge c exitDiv with hlt | hge
            · exact hlt
            · exfalso
              have hcE' : c = exitDiv := le_antisymm hcE hge
              subst hcE'
              rw [exitDiv_facts.2.2.2] at hcond
              have hWl := W_lit
              rcases hsize with h1 | hpr | hbig
              · omega
              · have := no_large_prime hpr hrW
                omega
              · have h32 : 2 ^ 32 < exitDiv := exitDiv_facts.2.1
                have hsq : W ≤ exitDiv * exitDiv := by
                  have hm : (2 : Nat) ^ 32 * 2 ^ 32 ≤ exitDiv * exitDiv :=
                    Nat.mul_le_mul (le_of_lt h32) (le_of_lt h32)
                  calc W = 2 ^ 32 * 2 ^ 32 := by norm_num [W]
                    _ ≤ exitDiv * exitDiv := hm
                omega
          · omega
        exact ⟨hr, hrW, hc6, hc5, hclt, hprimes⟩
      case isFalse hcond =>
        split
        case isTrue => trivial
        case isFalse => trivial
  | gstrip c r e =>
      obtain ⟨hr, hrW, hc6, hc5, hcE, hprimes⟩ := h
      simp only [stepG]
      split
      case isTrue hcond =>
        have hdvd : c ∣ r := Nat.dvd_of_mod_eq_zero hcond
        refine ⟨?_, ?_, hc6, hc5, hcE, ?_⟩
        · exact Nat.div_pos (Nat.le_of_dvd hr hdvd) (by omega)
        · have := Nat.div_le_self r c
          omega
        · intro p hp hpd
          exact hprimes p hp (hpd.trans (div_dvd_self hdvd))
      case isFalse hcond =>
        split
        case isTrue => trivial
        case isFalse =>
          have hE11 := exitDiv_facts.2.2.1
          have hE6 : exitDiv % 6 = 5 := exitDiv_facts.1
          have hprimes' : ∀ p : Nat, p.Prime → p ∣ r → nextWheel c ≤ p := by
            intro p hp hpd
            have hge := hprimes p hp hpd
            have hne : p ≠ c := by
              rintro rfl
              exact hcond (Nat.mod_eq_zero_of_dvd hpd)
            have hm := prime_mod_six hp (by omega)
            unfold nextWheel
            rcases hc6 with hc6 | hc6
            · rw [if_pos hc6, Nat.mod_eq_of_lt (by omega : c + 2 < W)]
              omega
            · rw [if_neg (by omega), Nat.mod_eq_of_lt (by omega : c + 4 < W)]
              omega
          have hnext5 : 5 ≤ nextWheel c ∧ (nextWheel c % 6 = 5 ∨ nextWheel c % 6 = 1) ∧
              nextWheel c ≤ exitDiv := by
            unfold nextWheel
            rcases hc6 with hc6 | hc6
            · rw [if_pos hc6, Nat.mod_eq_of_lt (by omega : c + 2 < W)]
              refine ⟨by omega, Or.inr (by omega), by omega⟩
            · rw [if_neg (by omega), Nat.mod_eq_of_lt (by omega : c + 4 < W)]
              refine ⟨by omega, Or.inl (by omega), by omega⟩
          refine ⟨hr, hrW, hnext5.2.1, hnext5.1, hnext5.2.2, hprimes', ?_⟩
          by_cases h1 : r = 1
          · exact Or.inl h1
          by_cases hpr : r.Prime
          · exact Or.inr (Or.inl hpr)
          exact Or.inr (Or.inr (composite_square_le (by omega) hpr hprimes'))
  | gdone r => trivial

lemma gInv_run {s : StG} (h : GInv s) (f : Nat) : GInv (runG f s) := by
  induction f generalizing s with
  | zero => exact h
  | succ f ih => exact ih (gInv_step h)

lemma gwheel_correct : ∀ m c r : Nat, exitDiv - c = m → GInv (.gcond c r) →
    ∃ k : Nat, ∃ res : Int, runG k (.gcond c r) = .gdone res ∧
      (res = 0 ∨ res = 1) ∧ (res = 1 ↔ PowerfulNat r) := by
  intro m
  induction m using Nat.strong_induction_on with
  | _ m ih =>
    intro c r hm hinv
    obtain ⟨hr, hrW, hc6, hc5, hcE, hprimes, hsize⟩ := id hinv
    by_cases hcond : c * c % W ≤ r
    · have hstep1 : stepG (.gcond c r) = .gstrip c r 0 := by simp [stepG, hcond]
      have hinv1 : GInv (.gstrip c r 0) := hstep1 ▸ gInv_step hinv
      obtain ⟨-, -, -, -, hclt, -⟩ := id hinv1
      have hE11 := exitDiv_facts.2.2.1
      have hE6 : exitDiv % 6 = 5 := exitDiv_facts.1
      obtain ⟨kk1, hkk1⟩ := gstrip_run c (by omega) r hr 0
      have hr'pos : 0 < (stripIter c r).1 := stripIter_pos c hr
      have hcp : c ∣ r → c.Prime := fun hdvd => prime_of_min_le (by omega) hdvd hprimes
      by_cases hk1 : (stripIter c r).2 = 1
      · rw [if_pos (by omega)] at hkk1
        refine ⟨1 + kk1, 0, ?_, Or.inl rfl, ?_⟩
        · rw [runG_add, runG_one, hstep1, hkk1]
        · constructor
          · intro h
            exact absurd h (by norm_num)
          · intro hpow
            exfalso
            have hdvd : c ∣ r := by
              by_contra hnd
              rw [stripIter_count_zero hnd] at hk1
              simp at hk1
            have hcprime := hcp hdvd
            exact not_powerful_of_exp_one hcprime hdvd
              (by rw [stripIter_factorization hcprime hr]; exact hk1) hpow
      · rw [if_neg (by omega)] at hkk1
        have hrun2 : runG (1 + kk1) (.gcond c r) = .gcond (nextWheel c) (stripIter c r).1 := by
          rw [runG_add, runG_one, hstep1, hkk1]
        have hinv2 : GInv (.gcond (nextWheel c) (stripIter c r).1) := by
          rw [← hrun2]
          exact gInv_run hinv (1 + kk1)
        have hnextgt : c < nextWheel c ∧ nextWheel c ≤ exitDiv := by
          unfold nextWheel
          rcases hc6 with hc6 | hc6
          · rw [if_pos hc6, Nat.mod_eq_of_lt (by omega : c + 2 < W)]
            omega
          · rw [if_neg (by omega), Nat.mod_eq_of_lt (by omega : c + 4 < W)]
            omega
        obtain ⟨k3, res, hrunf, hres01, hiff⟩ :=
          ih (exitDiv - nextWheel c) (by omega) (nextWheel c) _ rfl hinv2
        refine ⟨1 + kk1 + k3, res, ?_, hres01, ?_⟩
        · rw [runG_add, hrun2, hrunf]
        · have hiff1 : PowerfulNat r ↔ PowerfulNat (stripIter c r).1 :=
            powerful_strip_iff hr (by omega) hcp hk1
          exact hiff.trans hiff1.symm
    · by_cases hr1 : r = 1
      · subst hr1
        refine ⟨1, 1, ?_, Or.inr rfl, iff_of_true rfl powerful_one⟩
        show stepG (.gcond c 1) = .gdone 1
        simp [stepG, hcond]
      · refine ⟨1, 0, ?_, Or.inl rfl, ?_⟩
        · show stepG (.gcond c r) = .gdone 0
          simp [stepG, hcond, hr1]
        · constructor
          · intro h
            exact absurd h (by norm_num)
          · intro hpow
            exfalso
            rcases hsize with h1 | hpr | hbig
            · exact hr1 h1
            · exact not_powerful_of_exp_one hpr dvd_rfl
                (Nat.Prime.factorization_self hpr) hpow
            · have hdd : c * c < W := by omega
              rw [Nat.mod_eq_of_lt hdd] at hcond
              omega

lemma guarded_total_correct {n : Nat} (h1 : 1 ≤ n) (hW : n < W) :
    ∃ fuel : Nat, ∃ res : Int, resultG n fuel = some res ∧ (res = 0 ∨ res = 1) ∧
      (res = 1 ↔ PowerfulNat n) := by
  have hinit : initG n = .g2 n 0 := by
    unfold initG
    rw [if_neg (by omega)]
  obtain ⟨ka, hka⟩ := g2_run n (by omega) 0
  by_cases hk1 : (stripIter 2 n).2 = 1
  · rw [if_pos (by omega)] at hka
    refine ⟨ka, 0, ?_, Or.inl rfl, ?_⟩
    · rw [resultG_eq_some_iff, hinit, hka]
    · constructor
      · intro h
        exact absurd h (by norm_num)
      · intro hpow
        exfalso
        have hdvd : 2 ∣ n := by
          by_contra hnd
          rw [stripIter_count_zero hnd] at hk1
          simp at hk1
        exact not_powerful_of_exp_one Nat.prime_two hdvd
          (by rw [stripIter_factorization Nat.prime_two (by omega)]; exact hk1) hpow
  · rw [if_neg (by omega)] at hka
    have hr1pos : 0 < (stripIter 2 n).1 := stripIter_pos 2 (by omega)
    obtain ⟨kb, hkb⟩ := g3_run (stripIter 2 n).1 hr1pos 0
    by_cases hk2 : (stripIter 3 (stripIter 2 n).1).2 = 1
    · rw [if_pos (by omega)] at hkb
      refine ⟨ka + kb, 0, ?_, Or.inl rfl, ?_⟩
      · rw [resultG_eq_some_iff, hinit, runG_add, hka, hkb]
      · constructor
        · intro h
          exact absurd h (by norm_num)
        · intro hpow
          exfalso
          have hdvd : 3 ∣ (stripIter 2 n).1 := by
            by_contra hnd
            rw [stripIter_count_zero hnd] at hk2
            simp at hk2
          have hf1 : ((stripIter 2 n).1).factorization 3 = 1 := by
            rw [stripIter_factorization Nat.prime_three hr1pos]
            exact hk2
          have h3n : 3 ∣ n := hdvd.trans ⟨2 ^ (stripIter 2 n).2, (stripIter_mul 2 n).symm⟩
          have hfn : n.factorization 3 = 1 := by
            rw [← stripIter_factorization_ne Nat.prime_two (by omega)
              (by norm_num : (3 : Nat) ≠ 2)]
            exact hf1
          exact not_powerful_of_exp_one Nat.prime_three h3n hfn hpow
    · rw [if_neg (by omega)] at hkb
      have hrunW : runG (ka + kb) (initG n) = .gcond 5 (stripIter 3 (stripIter 2 n).1).1 := by
        rw [hinit, runG_add, hka, hkb]
      have hg2inv : GInv (.g2 n 0) := ⟨by omega, hW⟩
      have hinvW : GInv (.gcond 5 (stripIter 3 (stripIter 2 n).1).1) := by
        have hmach := gInv_run hg2inv (ka + kb)
        have hrunW2 := hrunW
        rw [hinit] at hrunW2
        rwa [hrunW2] at hmach
      obtain ⟨k3, res, hrunf, hres01, hiff⟩ :=
        gwheel_correct (exitDiv - 5) 5 _ rfl hinvW
      refine ⟨ka + kb + k3, res, ?_, hres01, ?_⟩
      · rw [resultG_eq_some_iff, runG_add, hrunW, hrunf]
      · have hiff1 : PowerfulNat n ↔ PowerfulNat (stripIter 2 n).1 :=
          powerful_strip_iff (by omega) (by norm_num) (fun _ => Nat.prime_two) hk1
        have hiff2 : PowerfulNat (stripIter 2 n).1 ↔
            PowerfulNat (stripIter 3 (stripIter 2 n).1).1 :=
          powerful_strip_iff hr1pos (by norm_num) (fun _ => Nat.prime_three) hk2
        exact hiff.trans (hiff2.symm.trans hiff1.symm)

/-- C9: the unguarded code — which tests the second wheel candidate
`divisor + 2` without re-checking `divisor * divisor <= number` after the
mid-loop increment — returns the same classification as the guarded
algorithm the spec describes (guard re-checked before every candidate),
for every `1 ≤ n < 2^64`: both terminate and produce the same value. -/
theorem c9_guarded_equiv (n : Nat) (h1 : 1 ≤ n) (hW : n < W) :
    ∃ r : Int, (∃ f : Nat, result n f = some r) ∧
      (∃ g : Nat, resultG n g = some r) := by
  obtain ⟨f, r, hf, h01, hiff⟩ := ispowerful_total_correct h1 hW
  obtain ⟨g, r', hg, h01', hiff'⟩ := guarded_total_correct h1 hW
  have hrr : r = r' := by
    by_cases hpow : PowerfulNat n
    · rw [hiff.mpr hpow, hiff'.mpr hpow]
    · rcases h01 with h0 | h1'
      · rcases h01' with h0' | h1''
        · rw [h0, h0']
        · exact absurd (hiff'.mp h1'') hpow
      · exact absurd (hiff.mp h1') hpow
  refine ⟨r, ⟨f, hf⟩, ⟨g, ?_⟩⟩
  rw [hrr]
  exact hg

/-- Witness for C9 at the concrete input 4. -/
theorem c9_witness :
    ∃ r : Int, (∃ f : Nat, result 4 f = some r) ∧
      (∃ g : Nat, resultG 4 g = some r) :=
  c9_guarded_equiv 4 (by norm_num) (by norm_num [W])

lemma strtol0Full_no_digits {s : List Char} (h : (strtol0Full s).2.2 = 0) :
    strtol0Full s = (0, false, 0) := by
  unfold strtol0Full at h ⊢
  simp only [] at h ⊢
  split
  case isTrue => rfl
  case isFalse hC =>
    rw [if_neg hC] at h
    exfalso
    split at h <;> split at h <;> simp_all

/-- C5 counterexample: it is false that a non-numeric argument (one from
which `strtol` consumes no digits) is detected by the CLI before the core
is invoked.  On the argument "abc", `strtol` returns 0 with no error
indication, the CLI's checks all pass, `ispowerful` is called with 0, and
`main` exits successfully. -/
theorem c5_counterexample :
    ¬ (∀ prog a : List Char, (strtol0Full a).2.2 = 0 →
        (mainModel [prog, a]).1 ≠ 0 ∧ (mainModel [prog, a]).2 = none) := by
  intro hall
  have h := hall ['p'] ['a', 'b', 'c'] (by decide)
  have hm : mainModel [['p'], ['a', 'b', 'c']] = (0, some 0) := by decide
  rw [hm] at h
  exact h.1 rfl

/-- C5 (amended): the CLI detects wrong argument count, out-of-range
(`ERANGE`) arguments, and negative arguments before the core is invoked,
exiting with failure in each case; a non-numeric argument, however, is
parsed by `strtol` as 0 with no error indication, so it does reach the
core as the value 0, with a successful exit status. -/
theorem c5_cli_errors_amended (args : List (List Char)) :
    (args.length ≠ 2 → mainModel args = (1, none)) ∧
    (∀ prog a : List Char, args = [prog, a] →
      ((strtol0 a).2 = true → mainModel args = (1, none)) ∧
      ((strtol0 a).1 < 0 → mainModel args = (1, none)) ∧
      ((strtol0Full a).2.2 = 0 → mainModel args = (0, some 0))) := by
  constructor
  · intro hlen
    match args with
    | [] => rfl
    | [_] => rfl
    | [_, _] => exact absurd rfl hlen
    | _ :: _ :: _ :: _ => rfl
  · rintro prog a rfl
    refine ⟨?_, ?_, ?_⟩
    · intro her
      simp [mainModel, her]
    · intro hneg
      by_cases her : (strtol0 a).2
      · simp [mainModel, her]
      · simp [mainModel, her, hneg]
    · intro hnd
      have h0 := strtol0Full_no_digits hnd
      have hs : strtol0 a = (0, false) := by
        unfold strtol0
        rw [h0]
      simp [mainModel, hs]

/-- Witness for the amended C5: the negative argument "-5" is rejected
with failure status and the core is never called. -/
theorem c5_witness : mainModel [['p'], ['-', '5']] = (1, none) :=
  ((c5_cli_errors_amended [['p'], ['-', '5']]).2 ['p'] ['-', '5'] rfl).2.1 (by decide)
